import Mathlib

set_option linter.unusedSectionVars false

/-!
# Verification of the Poseidon circuit construction (`src/circuit.rs`)

This file gives a shallow embedding of the circuit-construction code of the
repository: the rank-1 constraint-system interface consumed by the code, the
arithmetic gadgets (`sum`, `multi_sum`, `add`, `multi_add`, `quintic_s_box`),
the stateful permutation driver (`PoseidonCircuit` with `add_round_constants`,
`product_mds`, `full_round`, `partial_round`, `hash`) and the top-level entry
point `poseidon_hash`, together with a reference (non-circuit) model of the
permutation, and proves the specified properties about them.

Machine integers (`usize`) are modelled as `Nat`; the prime field is modelled
as an arbitrary commutative ring `F` (the code is generic over the scalar
field of an `Engine` and only uses `+`, `*`, `zero` and `square`).  Fallible
construction is modelled with `Except`: an explicit `Failure.assignmentMissing`
for a `SynthesisError::AssignmentMissing` returned as a `Result::Err`, and a
distinguished `Failure.panicked` for a Rust panic (out-of-bounds indexing, or
`unwrap` of an `Err`).
-/

namespace Neptune

/-- A failure during circuit synthesis: either a `SynthesisError` returned as
an `Err` value (only `AssignmentMissing` arises in this code), or a Rust panic
(out-of-bounds slice indexing, or `unwrap()` on an `Err`). -/
inductive Failure where
  | assignmentMissing : Failure
  | panicked : Failure
deriving DecidableEq, Repr

/-- A constraint-system variable: the fixed input variable `one` (`CS::one()`)
or an auxiliary variable identified by its allocation index. -/
inductive Var where
  | one : Var
  | aux : Nat → Var
deriving DecidableEq, Repr

/-- `bellperson::gadgets::num::AllocatedNum`: an allocated variable handle
together with its optional concrete witness value. -/
structure AllocatedNum (F : Type) where
  var : Var
  value : Option F
deriving DecidableEq, Repr

/-- A linear combination of variables with field coefficients. -/
abbrev LinComb (F : Type) := List (Var × F)

/-- A rank-1 constraint `a * b = c` over linear combinations. -/
structure Constraint (F : Type) where
  a : LinComb F
  b : LinComb F
  c : LinComb F
deriving DecidableEq, Repr

/-- The constraint system: the values of the auxiliary variables in
allocation order, and the registered constraints in registration order.
Modelled from the spec: the external constraint-system framework (§6) in
witness-evaluating mode — allocation appends a variable, `enforce` appends a
constraint, and namespacing is ignored as it has no semantic effect. -/
structure CS (F : Type) where
  aux : List (Option F)
  constraints : List (Constraint F)
deriving DecidableEq, Repr

/-- A circuit-construction computation: a state transformer over the
constraint system that can fail. -/
def M (F α : Type) : Type := CS F → Except Failure (α × CS F)

/-- Sequencing of circuit-construction computations (the `?` operator:
both `Err` results and panics abort the remaining construction). -/
def mbind {F α β : Type} (m : M F α) (f : α → M F β) : M F β := fun cs =>
  match m cs with
  | .ok (a, cs₁) => f a cs₁
  | .error e => .error e

/-- The pure circuit-construction computation. -/
def mpure {F α : Type} (a : α) : M F α := fun cs => .ok (a, cs)

/-- The construction step that fails outright (a Rust panic). -/
def mpanic {F α : Type} : M F α := fun _ => .error .panicked

/-- Modelled from the spec: variable allocation in the external framework
(`AllocatedNum::alloc`, §6).  The value closure is evaluated; on success the
new variable carries the computed value, a closure failure propagates. -/
def alloc {F : Type} (v : Except Failure F) : M F (AllocatedNum F) := fun cs =>
  match v with
  | .ok x => .ok (⟨Var.aux cs.aux.length, some x⟩, ⟨cs.aux ++ [some x], cs.constraints⟩)
  | .error e => .error e

/-- Modelled from the spec: constraint registration in the external framework
(`ConstraintSystem::enforce`, §6): appends one rank-1 constraint. -/
def enforce {F : Type} (a b c : LinComb F) : M F Unit := fun cs =>
  .ok ((), ⟨cs.aux, cs.constraints ++ [⟨a, b, c⟩]⟩)

/-- `self.get_value().ok_or_else(|| SynthesisError::AssignmentMissing)`. -/
def getVal {F : Type} (n : AllocatedNum F) : Except Failure F :=
  match n.value with
  | some v => .ok v
  | none => .error .assignmentMissing

/-- The value closure of `add`: `a + b`, or `AssignmentMissing` when either
input carries no value (`a` is forced first, as in the source). -/
def addValue {F : Type} [CommRing F] (a b : AllocatedNum F) : Except Failure F :=
  match a.value with
  | none => .error .assignmentMissing
  | some x =>
    match b.value with
    | none => .error .assignmentMissing
    | some y => .ok (x + y)

/-- The value closure of `AllocatedNum::mul`: `a * b`, or `AssignmentMissing`
when either input carries no value. -/
def mulValue {F : Type} [CommRing F] (a b : AllocatedNum F) : Except Failure F :=
  match a.value with
  | none => .error .assignmentMissing
  | some x =>
    match b.value with
    | none => .error .assignmentMissing
    | some y => .ok (x * y)

/-- The value closure of `AllocatedNum::square`: `a * a`, or
`AssignmentMissing` when the input carries no value. -/
def squareValue {F : Type} [CommRing F] (a : AllocatedNum F) : Except Failure F :=
  match a.value with
  | none => .error .assignmentMissing
  | some x => .ok (x * x)

/-- The value closure of `multi_add`:
`nums.iter().fold(zero, |acc, num| acc + num.get_value().ok_or(AssignmentMissing).unwrap())`.
The `unwrap()` of the `Err` is a Rust panic, not an `Err` result. -/
def multiAddValue {F : Type} [CommRing F] : List (AllocatedNum F) → F → Except Failure F
  | [], acc => .ok acc
  | n :: ns, acc =>
    match n.value with
    | some v => multiAddValue ns (acc + v)
    | none => .error .panicked

/-- Modelled from the spec: `AllocatedNum::mul` of the external framework
(§6): allocates the product and registers one constraint `a * b = product`. -/
def mul {F : Type} [CommRing F] (a b : AllocatedNum F) : M F (AllocatedNum F) :=
  mbind (alloc (mulValue a b)) fun res =>
  mbind (enforce [(a.var, 1)] [(b.var, 1)] [(res.var, 1)]) fun _ =>
  mpure res

/-- Modelled from the spec: `AllocatedNum::square` of the external framework
(§6): allocates the square and registers one constraint `a * a = square`. -/
def square {F : Type} [CommRing F] (a : AllocatedNum F) : M F (AllocatedNum F) :=
  mbind (alloc (squareValue a)) fun res =>
  mbind (enforce [(a.var, 1)] [(a.var, 1)] [(res.var, 1)]) fun _ =>
  mpure res

/-- `sum`: registers the single constraint `(a + b) * 1 = s`. -/
def sum {F : Type} [CommRing F] (a b s : AllocatedNum F) : M F Unit :=
  enforce [(a.var, 1), (b.var, 1)] [(Var.one, 1)] [(s.var, 1)]

/-- `multi_sum`: registers the single constraint
`(nums[0] + nums[1] + … + nums[n]) * 1 = s`. -/
def multi_sum {F : Type} [CommRing F] (nums : List (AllocatedNum F)) (s : AllocatedNum F) :
    M F Unit :=
  enforce (nums.map fun n => (n.var, (1 : F))) [(Var.one, 1)] [(s.var, 1)]

/-- `add`: allocates `res` with value `a + b` and registers the `sum`
constraint binding it. -/
def add {F : Type} [CommRing F] (a b : AllocatedNum F) : M F (AllocatedNum F) :=
  mbind (alloc (addValue a b)) fun res =>
  mbind (sum a b res) fun _ =>
  mpure res

/-- `multi_add`: allocates `res` with the folded value of `nums` (panicking on
a missing value) and registers the `multi_sum` constraint binding it. -/
def multi_add {F : Type} [CommRing F] (nums : List (AllocatedNum F)) : M F (AllocatedNum F) :=
  mbind (alloc (multiAddValue nums 0)) fun res =>
  mbind (multi_sum nums res) fun _ =>
  mpure res

/-- `quintic_s_box`: `l² → l⁴ → l⁵` via `square`, `square`, `mul`. -/
def quintic_s_box {F : Type} [CommRing F] (l : AllocatedNum F) : M F (AllocatedNum F) :=
  mbind (square l) fun l2 =>
  mbind (square l2) fun l4 =>
  mul l4 l

/-- The circuit-side permutation state (`PoseidonCircuit`). -/
structure PoseidonCircuit (F : Type) where
  constants_offset : Nat
  round_constants : List (AllocatedNum F)
  width : Nat
  elements : List (AllocatedNum F)
  pos : Nat
  full_rounds : Nat
  partial_rounds : Nat
  mds_matrix : List (List (AllocatedNum F))
deriving Repr

/-- `PoseidonCircuit::new`.  The constants `WIDTH`, `FULL_ROUNDS` and
`PARTIAL_ROUNDS` are crate-level parameters defined outside this source file
and are passed explicitly here. -/
def PoseidonCircuit.new {F : Type} (WIDTH FULL_ROUNDS PARTIAL_ROUNDS : Nat)
    (elements : List (AllocatedNum F)) (matrix : List (List (AllocatedNum F)))
    (round_constants : List (AllocatedNum F)) : PoseidonCircuit F :=
  { constants_offset := 0
    round_constants := round_constants
    width := WIDTH
    elements := elements
    pos := WIDTH
    full_rounds := FULL_ROUNDS
    partial_rounds := PARTIAL_ROUNDS
    mds_matrix := matrix }

/-- The loop body of `add_round_constants`: for each element in order, read
`round_constants[constants_offset]` (a panic when out of bounds), advance the
offset by one and replace the element by `add(element, constant)`. -/
def addRoundConstantsLoop {F : Type} [CommRing F] (rcs : List (AllocatedNum F)) :
    List (AllocatedNum F) → Nat → M F (List (AllocatedNum F) × Nat)
  | [], off => mpure ([], off)
  | e :: es, off =>
    match rcs[off]? with
    | none => mpanic
    | some c =>
      mbind (add e c) fun e' =>
      mbind (addRoundConstantsLoop rcs es (off + 1)) fun rest =>
      mpure (e' :: rest.1, rest.2)

/-- `add_round_constants`: runs the loop over all elements starting from the
stored cursor and writes the advanced cursor back. -/
def add_round_constants {F : Type} [CommRing F] (p : PoseidonCircuit F) :
    M F (PoseidonCircuit F) :=
  mbind (addRoundConstantsLoop p.round_constants p.elements p.constants_offset) fun r =>
  mpure { p with elements := r.1, constants_offset := r.2 }

/-- The inner loop of `product_mds`: for each `k` in the given index list,
`mds_matrix[j][k].mul(elements[k])` (indexing panics when out of bounds). -/
def rowProductsLoop {F : Type} [CommRing F] (row els : List (AllocatedNum F)) :
    List Nat → M F (List (AllocatedNum F))
  | [] => mpure []
  | k :: ks =>
    match row[k]? with
    | none => mpanic
    | some tmp =>
      match els[k]? with
      | none => mpanic
      | some el =>
        mbind (mul tmp el) fun product =>
        mbind (rowProductsLoop row els ks) fun rest =>
        mpure (product :: rest)

/-- One output row of `product_mds`: push an `intial sum` variable with value
zero (immediately overwritten below), form the `WIDTH` row products, and
replace the row entry by their `multi_add`. -/
def mdsRow {F : Type} [CommRing F] (WIDTH : Nat) (mds : List (List (AllocatedNum F)))
    (els : List (AllocatedNum F)) (j : Nat) : M F (AllocatedNum F) :=
  mbind (alloc (.ok 0)) fun _initial =>
  match mds[j]? with
  | none => mpanic
  | some row =>
    mbind (rowProductsLoop row els (List.range WIDTH)) fun to_add =>
    multi_add to_add

/-- The outer loop of `product_mds` over the output rows `j`. -/
def mdsRowsLoop {F : Type} [CommRing F] (WIDTH : Nat) (mds : List (List (AllocatedNum F)))
    (els : List (AllocatedNum F)) : List Nat → M F (List (AllocatedNum F))
  | [] => mpure []
  | j :: js =>
    mbind (mdsRow WIDTH mds els j) fun r =>
    mbind (mdsRowsLoop WIDTH mds els js) fun rs =>
    mpure (r :: rs)

/-- `product_mds`: replaces the state vector by the MDS matrix product,
looping over `0..WIDTH` (the crate-level constant, passed explicitly). -/
def product_mds {F : Type} [CommRing F] (WIDTH : Nat) (p : PoseidonCircuit F) :
    M F (PoseidonCircuit F) :=
  mbind (mdsRowsLoop WIDTH p.mds_matrix p.elements (List.range WIDTH)) fun result =>
  mpure { p with elements := result }

/-- The S-box loop of `full_round`: replace every element by its quintic
S-box image, in index order. -/
def sboxLoop {F : Type} [CommRing F] : List (AllocatedNum F) → M F (List (AllocatedNum F))
  | [] => mpure []
  | e :: es =>
    mbind (quintic_s_box e) fun e' =>
    mbind (sboxLoop es) fun es' =>
    mpure (e' :: es')

/-- `full_round`: add round constants, apply the S-box to every element, then
multiply by the MDS matrix. -/
def full_round {F : Type} [CommRing F] (WIDTH : Nat) (p : PoseidonCircuit F) :
    M F (PoseidonCircuit F) :=
  mbind (add_round_constants p) fun p1 =>
  mbind (sboxLoop p1.elements) fun els =>
  product_mds WIDTH { p1 with elements := els }

/-- `partial_round`: add round constants, apply the S-box to `elements[0]`
only (indexing panics when the state is empty), then multiply by the MDS
matrix. -/
def partial_round {F : Type} [CommRing F] (WIDTH : Nat) (p : PoseidonCircuit F) :
    M F (PoseidonCircuit F) :=
  mbind (add_round_constants p) fun p1 =>
  match p1.elements with
  | [] => mpanic
  | e :: es =>
    mbind (quintic_s_box e) fun e' =>
    product_mds WIDTH { p1 with elements := e' :: es }

/-- Iterating a round `n` times (`for i in 0..n { round }`; the loop index is
only used for namespacing and has no semantic effect). -/
def iterRoundsLoop {F : Type} (step : PoseidonCircuit F → M F (PoseidonCircuit F)) :
    Nat → PoseidonCircuit F → M F (PoseidonCircuit F)
  | 0, p => mpure p
  | n + 1, p => mbind (step p) fun p' => iterRoundsLoop step n p'

/-- `hash`: `full_rounds / 2` full rounds, `partial_rounds` partial rounds,
`full_rounds / 2` full rounds, then return `elements[1]` (a panic when the
state has fewer than two elements). -/
def hash {F : Type} [CommRing F] (WIDTH : Nat) (p : PoseidonCircuit F) :
    M F (AllocatedNum F) :=
  mbind (iterRoundsLoop (full_round WIDTH) (p.full_rounds / 2) p) fun p1 =>
  mbind (iterRoundsLoop (partial_round WIDTH) p1.partial_rounds p1) fun p2 =>
  mbind (iterRoundsLoop (full_round WIDTH) (p2.full_rounds / 2) p2) fun p3 =>
  match p3.elements[1]? with
  | none => mpanic
  | some out => mpure out

/-- The allocation loop of `allocated_round_constants` (also the per-row loop
of `allocated_matrix`): allocate each field value as a variable, registering
no constraints. -/
def allocConstantsLoop {F : Type} : List F → M F (List (AllocatedNum F))
  | [] => mpure []
  | v :: vs =>
    mbind (alloc (.ok v)) fun a =>
    mbind (allocConstantsLoop vs) fun rest =>
    mpure (a :: rest)

/-- `allocated_round_constants`. -/
def allocated_round_constants {F : Type} (fr_constants : List F) :
    M F (List (AllocatedNum F)) :=
  allocConstantsLoop fr_constants

/-- `allocated_matrix`: allocate every matrix entry row-major. -/
def allocated_matrix {F : Type} : List (List F) → M F (List (List (AllocatedNum F)))
  | [] => mpure []
  | row :: rows =>
    mbind (allocConstantsLoop row) fun r =>
    mbind (allocated_matrix rows) fun rs =>
    mpure (r :: rs)

/-- `poseidon_hash`: materialize the MDS matrix and the round constants,
allocate the arity tag, prepend it to the preimage
(`preimage.push(arity_tag); preimage.rotate_right(1)`), and run `hash` on the
fresh `PoseidonCircuit`.  The crate-level parameters `WIDTH`, `FULL_ROUNDS`
and `PARTIAL_ROUNDS` and the externally generated `MDS_MATRIX`,
`ROUND_CONSTANTS` and `ARITY_TAG` are passed explicitly. -/
def poseidon_hash {F : Type} [CommRing F] (WIDTH FULL_ROUNDS PARTIAL_ROUNDS : Nat)
    (mds : List (List F)) (rcs : List F) (arityTag : F)
    (preimage : List (AllocatedNum F)) : M F (AllocatedNum F) :=
  mbind (allocated_matrix mds) fun matrix =>
  mbind (allocated_round_constants rcs) fun round_constants =>
  mbind (alloc (.ok arityTag)) fun arity_tag =>
  hash WIDTH (PoseidonCircuit.new WIDTH FULL_ROUNDS PARTIAL_ROUNDS
    ((preimage ++ [arity_tag]).rotateRight 1) matrix round_constants)

/-- Modelled from the spec: the crate-level `WIDTH` constant
(`WIDTH = ARITY + 1`, §3) for the tested configuration `ARITY = 2`. -/
def WIDTH : Nat := 3

/-- Modelled from the spec: the crate-level `ARITY` constant of the tested
configuration (§8: "arity = 2, width = 3"). -/
def ARITY : Nat := 2

/-- Modelled from the spec: the crate-level `FULL_ROUNDS` constant.  The spec
fixes the schedule as two blocks of `full_rounds / 2` full rounds (§4.2) and
the exact constraint oracle 1182 for width 3 (§8); with the standard Poseidon
full-round count 8 this gives `4·24 + 55·18 + 4·24 = 1182`. -/
def FULL_ROUNDS : Nat := 8

/-- Modelled from the spec: the crate-level `PARTIAL_ROUNDS` constant,
determined by the 1182-constraint oracle for width 3 (§8) together with
`FULL_ROUNDS = 8`. -/
def PARTIAL_ROUNDS : Nat := 55

section Reference

variable {F : Type} [CommRing F]

/-- Modelled from the spec: the round-constant addition of the reference
(non-circuit) permutation (§4.2, "for each state slot `i`,
`state[i] ← state[i] + next_constant()`, advancing the cursor by one per
slot").  The reference implementation (`crate::Poseidon`) is not under
`src/`. -/
def refRoundConstantsAdd (rcs : List F) : List F → Nat → List F × Nat
  | [], off => ([], off)
  | x :: xs, off =>
    let r := refRoundConstantsAdd rcs xs (off + 1)
    ((x + rcs.getD off 0) :: r.1, r.2)

/-- Modelled from the spec: the reference quintic S-box `x ↦ x⁵` applied to
every slot (§4.2). -/
def refSboxAll (st : List F) : List F := st.map fun x => x ^ 5

/-- Modelled from the spec: the reference quintic S-box applied to the first
slot only (§4.2, partial round). -/
def refSboxFirst : List F → List F
  | [] => []
  | x :: xs => x ^ 5 :: xs

/-- Modelled from the spec: one output row of the reference MDS
multiplication — the fold of the `width` products `mds[j][k] * state[k]`
(§4.2). -/
def refMdsRow (W : Nat) (mds : List (List F)) (st : List F) (j : Nat) : F :=
  ((List.range W).map fun k => (mds.getD j []).getD k 0 * st.getD k 0).foldl (· + ·) 0

/-- Modelled from the spec: the reference MDS matrix multiplication
`state ← MDS · state` (§4.2). -/
def refProductMds (W : Nat) (mds : List (List F)) (st : List F) : List F :=
  (List.range W).map (refMdsRow W mds st)

/-- Modelled from the spec: one reference full round — add round constants,
S-box every slot, diffusion (§4.2).  The state is paired with the
round-constants cursor. -/
def refFullRound (W : Nat) (mds : List (List F)) (rcs : List F)
    (s : List F × Nat) : List F × Nat :=
  let a := refRoundConstantsAdd rcs s.1 s.2
  (refProductMds W mds (refSboxAll a.1), a.2)

/-- Modelled from the spec: one reference partial round — add round
constants, S-box the first slot only, diffusion (§4.2). -/
def refPartialRound (W : Nat) (mds : List (List F)) (rcs : List F)
    (s : List F × Nat) : List F × Nat :=
  let a := refRoundConstantsAdd rcs s.1 s.2
  (refProductMds W mds (refSboxFirst a.1), a.2)

/-- Iterating a reference round. -/
def refRounds (f : List F × Nat → List F × Nat) : Nat → List F × Nat → List F × Nat
  | 0, s => s
  | n + 1, s => refRounds f n (f s)

/-- Modelled from the spec: the reference (non-circuit) Poseidon permutation
(`crate::Poseidon`, not under `src/`): prepend the arity tag, run
`FR / 2` full rounds, `PR` partial rounds, `FR / 2` full rounds (§4.2), and
return slot 1 of the terminal state (§4.2, "the hash digest is the element at
index 1"). -/
def refPoseidon (W FR PR : Nat) (mds : List (List F)) (rcs : List F)
    (tag : F) (input : List F) : F :=
  let s1 := refRounds (refFullRound W mds rcs) (FR / 2) (tag :: input, 0)
  let s2 := refRounds (refPartialRound W mds rcs) PR s1
  let s3 := refRounds (refFullRound W mds rcs) (FR / 2) s2
  s3.1.getD 1 0

end Reference

section Infrastructure

variable {F : Type} [CommRing F]

/-- `valued ns vs`: the allocated numbers `ns` carry exactly the concrete
values `vs`. -/
def valued (ns : List (AllocatedNum F)) (vs : List F) : Prop :=
  List.Forall₂ (fun n v => n.value = some v) ns vs

/-- The variables of a list of allocated numbers. -/
def varsOf (ns : List (AllocatedNum F)) : List Var := ns.map AllocatedNum.var

/-- `matrixValued m vs`: the allocated matrix `m` carries the values `vs`. -/
def matrixValued (m : List (List (AllocatedNum F))) (vs : List (List F)) : Prop :=
  List.Forall₂ valued m vs

/-- The variables of an allocated matrix. -/
def matrixVars (m : List (List (AllocatedNum F))) : List Var := (m.map varsOf).flatten

/-- All variables mentioned by a constraint (in its three linear
combinations). -/
def constraintVars (c : Constraint F) : List Var :=
  c.a.map Prod.fst ++ c.b.map Prod.fst ++ c.c.map Prod.fst

/-- `VarOK S lo hi zs v`: the variable `v` is the fixed `one` input, one of
the ambient variables `S`, or an auxiliary variable freshly allocated in the
index window `[lo, hi)` that is not one of the `intial sum` indices `zs`. -/
def VarOK (S : List Var) (lo hi : Nat) (zs : List Nat) (v : Var) : Prop :=
  v = Var.one ∨ v ∈ S ∨ ∃ i, v = Var.aux i ∧ lo ≤ i ∧ i < hi ∧ i ∉ zs

/-- The bookkeeping facts of one synthesis step from `csIn` to `csOut`:
the auxiliary variables are extended by `auxCount` entries, the constraints
by `csCount` new ones; every new constraint mentions only `one`, ambient
variables from `S`, or fresh non-`zs` variables, and binds a fresh non-`zs`
variable as its output; and each index in `zs` is a fresh variable carrying
the concrete value `0`. -/
structure SynthFacts (S : List Var) (csIn csOut : CS F) (zs : List Nat)
    (auxCount csCount : Nat) : Prop where
  auxEq : ∃ L, csOut.aux = csIn.aux ++ L ∧ L.length = auxCount
  csEq : ∃ L, csOut.constraints = csIn.constraints ++ L ∧ L.length = csCount ∧
    ∀ c ∈ L, (∀ v ∈ constraintVars c, VarOK S csIn.aux.length csOut.aux.length zs v) ∧
      ∃ i, csIn.aux.length ≤ i ∧ i < csOut.aux.length ∧ i ∉ zs ∧ c.c = [(Var.aux i, 1)]
  zsOK : ∀ z ∈ zs, csIn.aux.length ≤ z ∧ z < csOut.aux.length ∧ csOut.aux[z]? = some (some 0)

/-- `varsFresh lo hi zs l`: every variable in `l` is an auxiliary variable
with index in `[lo, hi)` avoiding the `intial sum` indices `zs`. -/
def varsFresh (lo hi : Nat) (zs : List Nat) (l : List Var) : Prop :=
  ∀ v ∈ l, ∃ i, v = Var.aux i ∧ lo ≤ i ∧ i < hi ∧ i ∉ zs

/-- A uniform specification of one round step (full or partial), as
established by `full_round_ok` and `partial_round_ok`: the cursor advances by
exactly `W`, the width stays `W`, the values follow the reference step, and
the step adds `auxN` variables (`W` of them the zero `intial sum` variables)
and `csN` constraints mentioning only ambient or fresh non-zero variables. -/
def RoundSpec (rcsA : List (AllocatedNum F)) (rv : List F)
    (mds : List (List (AllocatedNum F))) (W auxN csN : Nat)
    (step : PoseidonCircuit F → M F (PoseidonCircuit F))
    (refStep : List F × Nat → List F × Nat) : Prop :=
  ∀ (p : PoseidonCircuit F) (vs : List F) (cs : CS F),
    p.round_constants = rcsA → p.mds_matrix = mds →
    valued p.elements vs → p.elements.length = W →
    p.constants_offset + W ≤ rv.length →
    ∃ p' cs' zs,
      step p cs = .ok (p', cs') ∧
      p'.round_constants = rcsA ∧ p'.mds_matrix = mds ∧
      p'.full_rounds = p.full_rounds ∧ p'.partial_rounds = p.partial_rounds ∧
      p'.constants_offset = p.constants_offset + W ∧
      valued p'.elements (refStep (vs, p.constants_offset)).1 ∧
      p'.elements.length = W ∧
      (refStep (vs, p.constants_offset)).2 = p.constants_offset + W ∧
      zs.length = W ∧
      SynthFacts (varsOf p.elements ++ varsOf rcsA ++ matrixVars mds) cs cs' zs auxN csN ∧
      varsFresh cs.aux.length cs'.aux.length zs (varsOf p'.elements)

theorem valued_length {ns : List (AllocatedNum F)} {vs : List F} (h : valued ns vs) :
    ns.length = vs.length := h.length_eq

theorem valued_nil : valued ([] : List (AllocatedNum F)) [] := List.Forall₂.nil

theorem valued_cons {n : AllocatedNum F} {v : F} {ns : List (AllocatedNum F)} {vs : List F}
    (h1 : n.value = some v) (h2 : valued ns vs) : valued (n :: ns) (v :: vs) :=
  List.Forall₂.cons h1 h2

theorem valued_get {ns : List (AllocatedNum F)} {vs : List F} (h : valued ns vs) :
    ∀ i, i < vs.length → ∃ c, ns[i]? = some c ∧ c.value = some (vs.getD i 0) := by
  induction h with
  | nil => intro i hi; simp at hi
  | @cons n v ns vs h1 h2 ih =>
    intro i hi
    match i with
    | 0 => exact ⟨n, by simp, by simpa using h1⟩
    | i + 1 => simpa using ih i (by simpa using hi)

theorem varOK_mono {S S' : List Var} {lo lo' hi hi' : Nat} {zs zs' : List Nat} {v : Var}
    (h : VarOK S lo hi zs v) (hS : ∀ x ∈ S, x ∈ S') (hlo : lo' ≤ lo) (hhi : hi ≤ hi')
    (hzs : ∀ i, lo ≤ i → i < hi → i ∉ zs → i ∉ zs') : VarOK S' lo' hi' zs' v := by
  rcases h with h | h | ⟨i, rfl, h1, h2, h3⟩
  · exact Or.inl h
  · exact Or.inr (Or.inl (hS _ h))
  · exact Or.inr (Or.inr ⟨i, rfl, le_trans hlo h1, lt_of_lt_of_le h2 hhi, hzs i h1 h2 h3⟩)

/-- The identity synthesis step. -/
theorem synthFacts_refl (S : List Var) (cs : CS F) : SynthFacts S cs cs [] 0 0 := by
  refine ⟨⟨[], by simp, rfl⟩, ⟨[], by simp, rfl, by simp⟩, by simp⟩

/-- Composition of two synthesis steps: the ambient variables of the second
step must be `one`, ambient in the first step, or fresh non-`zs` variables of
the first step. -/
theorem synthFacts_comp {S₁ S₂ : List Var} {cs1 cs2 cs3 : CS F} {zs1 zs2 : List Nat}
    {a1 a2 c1 c2 : Nat}
    (h1 : SynthFacts S₁ cs1 cs2 zs1 a1 c1) (h2 : SynthFacts S₂ cs2 cs3 zs2 a2 c2)
    (hS : ∀ v ∈ S₂, VarOK S₁ cs1.aux.length cs2.aux.length zs1 v) :
    SynthFacts S₁ cs1 cs3 (zs1 ++ zs2) (a1 + a2) (c1 + c2) := by
  obtain ⟨A1, hA1, hA1len⟩ := h1.auxEq
  obtain ⟨A2, hA2, hA2len⟩ := h2.auxEq
  obtain ⟨C1, hC1, hC1len, hC1f⟩ := h1.csEq
  obtain ⟨C2, hC2, hC2len, hC2f⟩ := h2.csEq
  have hlen12 : cs1.aux.length ≤ cs2.aux.length := by rw [hA1]; simp
  have hlen23 : cs2.aux.length ≤ cs3.aux.length := by rw [hA2]; simp
  have hzs1lt : ∀ z ∈ zs1, z < cs2.aux.length := fun z hz => (h1.zsOK z hz).2.1
  have hzs2ge : ∀ z ∈ zs2, cs2.aux.length ≤ z := fun z hz => (h2.zsOK z hz).1
  -- upgrading a first-step variable bound to the combined step
  have up1 : ∀ v, VarOK S₁ cs1.aux.length cs2.aux.length zs1 v →
      VarOK S₁ cs1.aux.length cs3.aux.length (zs1 ++ zs2) v := by
    intro v hv
    refine varOK_mono hv (fun x hx => hx) le_rfl hlen23 ?_
    intro i hlo hhi hnz hmem
    rcases List.mem_append.mp hmem with h | h
    · exact hnz h
    · exact absurd hhi (not_lt.mpr (hzs2ge i h))
  -- upgrading a second-step variable bound to the combined step
  have up2 : ∀ v, VarOK S₂ cs2.aux.length cs3.aux.length zs2 v →
      VarOK S₁ cs1.aux.length cs3.aux.length (zs1 ++ zs2) v := by
    intro v hv
    rcases hv with h | h | ⟨i, rfl, hlo, hhi, hnz⟩
    · exact Or.inl h
    · exact up1 _ (hS _ h)
    · refine Or.inr (Or.inr ⟨i, rfl, le_trans hlen12 hlo, hhi, ?_⟩)
      intro hmem
      rcases List.mem_append.mp hmem with h | h
      · exact absurd (hzs1lt i h) (not_lt.mpr hlo)
      · exact hnz h
  refine ⟨⟨A1 ++ A2, by rw [hA2, hA1, List.append_assoc], by simp [hA1len, hA2len]⟩,
    ⟨C1 ++ C2, by rw [hC2, hC1, List.append_assoc], by simp [hC1len, hC2len], ?_⟩, ?_⟩
  · intro c hc
    rcases List.mem_append.mp hc with h | h
    · obtain ⟨hvars, i, hi1, hi2, hi3, hi4⟩ := hC1f c h
      refine ⟨fun v hv => up1 v (hvars v hv), i, hi1, lt_of_lt_of_le hi2 hlen23, ?_, hi4⟩
      intro hmem
      rcases List.mem_append.mp hmem with hm | hm
      · exact hi3 hm
      · exact absurd hi2 (not_lt.mpr (hzs2ge i hm))
    · obtain ⟨hvars, i, hi1, hi2, hi3, hi4⟩ := hC2f c h
      refine ⟨fun v hv => up2 v (hvars v hv), i, le_trans hlen12 hi1, hi2, ?_, hi4⟩
      intro hmem
      rcases List.mem_append.mp hmem with hm | hm
      · exact absurd (hzs1lt i hm) (not_lt.mpr hi1)
      · exact hi3 hm
  · intro z hz
    rcases List.mem_append.mp hz with h | h
    · obtain ⟨hz1, hz2, hz3⟩ := h1.zsOK z h
      refine ⟨hz1, lt_of_lt_of_le hz2 hlen23, ?_⟩
      rw [hA2, List.getElem?_append]
      simp [hz2, hz3]
    · obtain ⟨hz1, hz2, hz3⟩ := h2.zsOK z h
      exact ⟨le_trans hlen12 hz1, hz2, hz3⟩

/-- Weakening the ambient variable list of a synthesis step. -/
theorem synthFacts_mono {S S' : List Var} {cs1 cs2 : CS F} {zs : List Nat} {a c : Nat}
    (h : SynthFacts S cs1 cs2 zs a c) (hS : ∀ x ∈ S, x ∈ S') :
    SynthFacts S' cs1 cs2 zs a c := by
  obtain ⟨C, hC, hClen, hCf⟩ := h.csEq
  refine ⟨h.auxEq, ⟨C, hC, hClen, ?_⟩, h.zsOK⟩
  intro c hc
  obtain ⟨hvars, hout⟩ := hCf c hc
  exact ⟨fun v hv => varOK_mono (hvars v hv) hS le_rfl le_rfl (fun _ _ _ hn => hn), hout⟩

end Infrastructure

section GadgetLemmas

variable {F : Type} [CommRing F]

theorem mbind_ok {α β : Type} {m : M F α} {cs cs₁ : CS F} {a : α}
    (h : m cs = .ok (a, cs₁)) (f : α → M F β) : mbind m f cs = f a cs₁ := by
  unfold mbind
  rw [h]

theorem mbind_error {α β : Type} {m : M F α} {cs : CS F} {e : Failure}
    (h : m cs = .error e) (f : α → M F β) : mbind m f cs = .error e := by
  unfold mbind
  rw [h]

theorem alloc_ok (x : F) (cs : CS F) :
    alloc (.ok x) cs =
      .ok (⟨Var.aux cs.aux.length, some x⟩, ⟨cs.aux ++ [some x], cs.constraints⟩) := rfl

theorem enforce_ok (a b c : LinComb F) (cs : CS F) :
    enforce a b c cs = .ok ((), ⟨cs.aux, cs.constraints ++ [⟨a, b, c⟩]⟩) := rfl

theorem mul_ok {a b : AllocatedNum F} {x y : F} (ha : a.value = some x) (hb : b.value = some y)
    (cs : CS F) :
    mul a b cs = .ok (⟨Var.aux cs.aux.length, some (x * y)⟩,
      ⟨cs.aux ++ [some (x * y)],
       cs.constraints ++ [⟨[(a.var, 1)], [(b.var, 1)], [(Var.aux cs.aux.length, 1)]⟩]⟩) := by
  simp [mul, mulValue, ha, hb, mbind, alloc, enforce, mpure]

theorem square_ok {a : AllocatedNum F} {x : F} (ha : a.value = some x) (cs : CS F) :
    square a cs = .ok (⟨Var.aux cs.aux.length, some (x * x)⟩,
      ⟨cs.aux ++ [some (x * x)],
       cs.constraints ++ [⟨[(a.var, 1)], [(a.var, 1)], [(Var.aux cs.aux.length, 1)]⟩]⟩) := by
  simp [square, squareValue, ha, mbind, alloc, enforce, mpure]

theorem add_ok {a b : AllocatedNum F} {x y : F} (ha : a.value = some x) (hb : b.value = some y)
    (cs : CS F) :
    add a b cs = .ok (⟨Var.aux cs.aux.length, some (x + y)⟩,
      ⟨cs.aux ++ [some (x + y)],
       cs.constraints ++
         [⟨[(a.var, 1), (b.var, 1)], [(Var.one, 1)], [(Var.aux cs.aux.length, 1)]⟩]⟩) := by
  simp [add, addValue, ha, hb, sum, mbind, alloc, enforce, mpure]

theorem multiAddValue_ok {ns : List (AllocatedNum F)} {vs : List F} (h : valued ns vs) :
    ∀ acc : F, multiAddValue ns acc = .ok (vs.foldl (· + ·) acc) := by
  induction h with
  | nil => intro acc; rfl
  | @cons n v ns vs h1 _ ih =>
    intro acc
    rw [multiAddValue, h1, List.foldl_cons]
    exact ih (acc + v)

theorem multi_add_ok {ns : List (AllocatedNum F)} {vs : List F} (h : valued ns vs) (cs : CS F) :
    multi_add ns cs = .ok (⟨Var.aux cs.aux.length, some (vs.foldl (· + ·) 0)⟩,
      ⟨cs.aux ++ [some (vs.foldl (· + ·) 0)],
       cs.constraints ++
         [⟨ns.map fun n => (n.var, (1 : F)), [(Var.one, 1)],
           [(Var.aux cs.aux.length, 1)]⟩]⟩) := by
  simp [multi_add, multiAddValue_ok h, multi_sum, mbind, alloc, enforce, mpure]

theorem quintic_s_box_ok {l : AllocatedNum F} {x : F} (h : l.value = some x) (cs : CS F) :
    quintic_s_box l cs = .ok (⟨Var.aux (cs.aux.length + 2), some (x * x * (x * x) * x)⟩,
      ⟨cs.aux ++ [some (x * x), some (x * x * (x * x)), some (x * x * (x * x) * x)],
       cs.constraints ++
         [⟨[(l.var, 1)], [(l.var, 1)], [(Var.aux cs.aux.length, 1)]⟩,
          ⟨[(Var.aux cs.aux.length, 1)], [(Var.aux cs.aux.length, 1)],
            [(Var.aux (cs.aux.length + 1), 1)]⟩,
          ⟨[(Var.aux (cs.aux.length + 1), 1)], [(l.var, 1)],
            [(Var.aux (cs.aux.length + 2), 1)]⟩]⟩) := by
  simp [quintic_s_box, square, squareValue, mul, mulValue, h, mbind, alloc, enforce, mpure,
    List.append_assoc]

/-- The synthesis facts of allocating one constant. -/
theorem synthFacts_alloc (S : List Var) (cs : CS F) (x : F) :
    SynthFacts S cs ⟨cs.aux ++ [some x], cs.constraints⟩ [] 1 0 := by
  refine ⟨⟨[some x], rfl, rfl⟩, ⟨[], by simp, rfl, by simp⟩, by simp⟩

/-- The synthesis facts of the `intial sum` zero allocation of
`product_mds`. -/
theorem synthFacts_allocZero (S : List Var) (cs : CS F) :
    SynthFacts S cs ⟨cs.aux ++ [some 0], cs.constraints⟩ [cs.aux.length] 1 0 := by
  refine ⟨⟨[some 0], rfl, rfl⟩, ⟨[], by simp, rfl, by simp⟩, ?_⟩
  intro z hz
  simp only [List.mem_singleton] at hz
  subst hz
  refine ⟨le_rfl, by simp, ?_⟩
  rw [List.getElem?_append_right le_rfl]
  simp

/-- The synthesis facts of a gadget that allocates one output variable and
registers one constraint binding it. -/
theorem synthFacts_gadget (S : List Var) (cs : CS F) (w : F) (c : Constraint F)
    (hc : ∀ v ∈ constraintVars c, v = Var.one ∨ v ∈ S ∨ v = Var.aux cs.aux.length)
    (hout : c.c = [(Var.aux cs.aux.length, 1)]) :
    SynthFacts S cs ⟨cs.aux ++ [some w], cs.constraints ++ [c]⟩ [] 1 1 := by
  refine ⟨⟨[some w], rfl, rfl⟩, ⟨[c], rfl, rfl, ?_⟩, by simp⟩
  intro c' hc'
  simp only [List.mem_singleton] at hc'
  subst hc'
  refine ⟨?_, cs.aux.length, le_rfl, by simp, by simp, hout⟩
  intro v hv
  rcases hc v hv with h | h | h
  · exact Or.inl h
  · exact Or.inr (Or.inl h)
  · exact Or.inr (Or.inr ⟨cs.aux.length, h, le_rfl, by simp, by simp⟩)

/-- The synthesis facts of one quintic S-box application: three new
variables, three new constraints, all mentioning only `l.var` and the fresh
variables. -/
theorem synthFacts_s_box (l : AllocatedNum F) (x : F) (cs : CS F) :
    SynthFacts [l.var] cs
      ⟨cs.aux ++ [some (x * x), some (x * x * (x * x)), some (x * x * (x * x) * x)],
       cs.constraints ++
         [⟨[(l.var, 1)], [(l.var, 1)], [(Var.aux cs.aux.length, 1)]⟩,
          ⟨[(Var.aux cs.aux.length, 1)], [(Var.aux cs.aux.length, 1)],
            [(Var.aux (cs.aux.length + 1), 1)]⟩,
          ⟨[(Var.aux (cs.aux.length + 1), 1)], [(l.var, 1)],
            [(Var.aux (cs.aux.length + 2), 1)]⟩]⟩ [] 3 3 := by
  refine ⟨⟨_, rfl, rfl⟩, ⟨_, rfl, rfl, ?_⟩, by simp⟩
  have hvOK : ∀ v, (v = l.var ∨ ∃ k, k < 3 ∧ v = Var.aux (cs.aux.length + k)) →
      VarOK [l.var] cs.aux.length
        (cs.aux ++ [some (x * x), some (x * x * (x * x)), some (x * x * (x * x) * x)]).length
        [] v := by
    intro v hv
    rcases hv with rfl | ⟨k, hk, rfl⟩
    · exact Or.inr (Or.inl (by simp))
    · refine Or.inr (Or.inr ⟨cs.aux.length + k, rfl, Nat.le_add_right _ _, ?_, by simp⟩)
      simp only [List.length_append, List.length_cons, List.length_nil]
      omega
  intro c hc
  simp only [List.mem_cons, List.not_mem_nil, or_false] at hc
  rcases hc with rfl | rfl | rfl
  · refine ⟨?_, cs.aux.length, le_rfl, by simp, by simp, rfl⟩
    intro v hv
    simp only [constraintVars, List.map_cons, List.map_nil, List.mem_append, List.mem_cons,
      List.not_mem_nil, or_false] at hv
    apply hvOK
    rcases hv with (h | h) | h
    · exact Or.inl h
    · exact Or.inl h
    · exact Or.inr ⟨0, by omega, by simpa using h⟩
  · refine ⟨?_, cs.aux.length + 1, Nat.le_add_right _ _, by simp, by simp, rfl⟩
    intro v hv
    simp only [constraintVars, List.map_cons, List.map_nil, List.mem_append, List.mem_cons,
      List.not_mem_nil, or_false] at hv
    apply hvOK
    rcases hv with (h | h) | h
    · exact Or.inr ⟨0, by omega, by simpa using h⟩
    · exact Or.inr ⟨0, by omega, by simpa using h⟩
    · exact Or.inr ⟨1, by omega, h⟩
  · refine ⟨?_, cs.aux.length + 2, Nat.le_add_right _ _, by simp, by simp, rfl⟩
    intro v hv
    simp only [constraintVars, List.map_cons, List.map_nil, List.mem_append, List.mem_cons,
      List.not_mem_nil, or_false] at hv
    apply hvOK
    rcases hv with (h | h) | h
    · exact Or.inr ⟨1, by omega, h⟩
    · exact Or.inl h
    · exact Or.inr ⟨2, by omega, h⟩

end GadgetLemmas

section LoopLemmas

variable {F : Type} [CommRing F]

theorem varsFresh_mono {lo lo' hi hi' : Nat} {zs zs' : List Nat} {l : List Var}
    (h : varsFresh lo hi zs l) (hlo : lo' ≤ lo) (hhi : hi ≤ hi')
    (hzs : ∀ i, lo ≤ i → i < hi → i ∉ zs → i ∉ zs') : varsFresh lo' hi' zs' l := by
  intro v hv
  obtain ⟨i, rfl, h1, h2, h3⟩ := h v hv
  exact ⟨i, rfl, le_trans hlo h1, lt_of_lt_of_le h2 hhi, hzs i h1 h2 h3⟩

/-- `preimage.push(arity_tag)` followed by `rotate_right(1)` prepends the
tag. -/
theorem rotateRight_append_singleton {α : Type} (l : List α) (t : α) :
    (l ++ [t]).rotateRight 1 = t :: l := by
  rcases l with _ | ⟨a, l⟩
  · rfl
  · simp only [List.rotateRight]
    have h1 : ¬ ((a :: l) ++ [t]).length ≤ 1 := by simp
    rw [if_neg h1]
    have h2 : ((a :: l) ++ [t]).length - 1 % ((a :: l) ++ [t]).length = (a :: l).length := by
      have h4 : ((a :: l) ++ [t]).length = (a :: l).length + 1 := by simp
      rw [h4]
      have h3 : 1 % ((a :: l).length + 1) = 1 := Nat.mod_eq_of_lt (by simp)
      rw [h3]
      omega
    rw [h2, List.take_left, List.drop_left]
    rfl

/-- Materializing a list of constants: the values are appended to the
auxiliary assignment, no constraint is registered, and the returned
variables are fresh and carry exactly the given values. -/
theorem allocConstantsLoop_ok (vs : List F) : ∀ cs : CS F,
    ∃ ns, allocConstantsLoop vs cs = .ok (ns, ⟨cs.aux ++ vs.map some, cs.constraints⟩) ∧
      valued ns vs ∧
      varsFresh cs.aux.length (cs.aux.length + vs.length) [] (varsOf ns) := by
  induction vs with
  | nil =>
    intro cs
    refine ⟨[], by simp [allocConstantsLoop, mpure], valued_nil, ?_⟩
    simp [varsOf, varsFresh]
  | cons v vs ih =>
    intro cs
    obtain ⟨ns, heq, hval, hfresh⟩ := ih ⟨cs.aux ++ [some v], cs.constraints⟩
    refine ⟨⟨Var.aux cs.aux.length, some v⟩ :: ns, ?_, valued_cons rfl hval, ?_⟩
    · rw [allocConstantsLoop, mbind_ok (alloc_ok v cs), mbind_ok heq]
      simp [mpure, List.append_assoc]
    · intro w hw
      rcases List.mem_cons.mp hw with rfl | hw
      · exact ⟨cs.aux.length, rfl, le_rfl, by simp, by simp⟩
      · obtain ⟨i, rfl, h1, h2, _⟩ := hfresh w hw
        simp only [List.length_append, List.length_cons, List.length_nil] at h1 h2
        exact ⟨i, rfl, by omega, by simp only [List.length_cons]; omega, by simp⟩

/-- `allocated_round_constants` materializes the round constants: values
appended, no constraints, fresh variables. -/
theorem allocated_round_constants_ok (vs : List F) (cs : CS F) :
    ∃ ns, allocated_round_constants vs cs =
        .ok (ns, ⟨cs.aux ++ vs.map some, cs.constraints⟩) ∧
      valued ns vs ∧
      varsFresh cs.aux.length (cs.aux.length + vs.length) [] (varsOf ns) :=
  allocConstantsLoop_ok vs cs

/-- `allocated_matrix` materializes the MDS matrix row-major: values
appended, no constraints, fresh variables. -/
theorem allocated_matrix_ok (rows : List (List F)) : ∀ cs : CS F,
    ∃ mA, allocated_matrix rows cs =
        .ok (mA, ⟨cs.aux ++ rows.flatten.map some, cs.constraints⟩) ∧
      matrixValued mA rows ∧
      varsFresh cs.aux.length (cs.aux.length + rows.flatten.length) [] (matrixVars mA) := by
  induction rows with
  | nil =>
    intro cs
    refine ⟨[], by simp [allocated_matrix, mpure], List.Forall₂.nil, ?_⟩
    simp [matrixVars, varsFresh]
  | cons row rows ih =>
    intro cs
    obtain ⟨r, hreq, hrval, hrfresh⟩ := allocConstantsLoop_ok row cs
    obtain ⟨mA, heq, hval, hfresh⟩ := ih ⟨cs.aux ++ row.map some, cs.constraints⟩
    refine ⟨r :: mA, ?_, List.Forall₂.cons hrval hval, ?_⟩
    · rw [allocated_matrix, mbind_ok hreq, mbind_ok heq]
      simp [mpure, List.append_assoc]
    · intro w hw
      rw [show matrixVars (r :: mA) = varsOf r ++ matrixVars mA by simp [matrixVars]] at hw
      rcases List.mem_append.mp hw with hw | hw
      · obtain ⟨i, rfl, h1, h2, _⟩ := hrfresh w hw
        refine ⟨i, rfl, h1, ?_, by simp⟩
        simp only [List.flatten_cons, List.length_append]
        omega
      · obtain ⟨i, rfl, h1, h2, _⟩ := hfresh w hw
        simp only [List.length_append, List.length_map] at h1 h2
        refine ⟨i, rfl, by omega, ?_, by simp⟩
        simp only [List.flatten_cons, List.length_append]
        omega

/-- The loop of `add_round_constants`: advances the cursor by exactly one
per element, produces the reference values, and adds one binding constraint
and one fresh variable per element. -/
theorem addRoundConstantsLoop_ok {rcs : List (AllocatedNum F)} {rv : List F}
    (hr : valued rcs rv) :
    ∀ (es : List (AllocatedNum F)) (vs : List F) (off : Nat) (cs : CS F),
      valued es vs → off + es.length ≤ rv.length →
      ∃ es' cs',
        addRoundConstantsLoop rcs es off cs = .ok ((es', off + es.length), cs') ∧
        valued es' (refRoundConstantsAdd rv vs off).1 ∧
        SynthFacts (varsOf es ++ varsOf rcs) cs cs' [] es.length es.length ∧
        varsFresh cs.aux.length cs'.aux.length [] (varsOf es') := by
  intro es
  induction es with
  | nil =>
    intro vs off cs hv _
    cases hv
    refine ⟨[], cs, by simp [addRoundConstantsLoop, mpure], ?_, ?_, ?_⟩
    · simp only [refRoundConstantsAdd]
      exact valued_nil
    · simpa using synthFacts_refl _ cs
    · simp [varsOf, varsFresh]
  | cons e es ih =>
    intro vs off cs hv hoff
    cases hv with
    | @cons _ v _ vs h1 h2 =>
      have hofflt : off < rv.length := by
        simp only [List.length_cons] at hoff
        omega
      obtain ⟨c, hcidx, hcval⟩ := valued_get hr off hofflt
      obtain ⟨es'', cs', heq2, hval2, hsf2, hfresh2⟩ :=
        ih vs (off + 1) ⟨cs.aux ++ [some (v + rv.getD off 0)],
          cs.constraints ++
            [⟨[(e.var, 1), (c.var, 1)], [(Var.one, 1)], [(Var.aux cs.aux.length, 1)]⟩]⟩ h2
          (by simp only [List.length_cons] at hoff; omega)
      have hT1 : SynthFacts (varsOf (e :: es) ++ varsOf rcs) cs
          ⟨cs.aux ++ [some (v + rv.getD off 0)],
           cs.constraints ++
             [⟨[(e.var, 1), (c.var, 1)], [(Var.one, 1)], [(Var.aux cs.aux.length, 1)]⟩]⟩
          [] 1 1 := by
        apply synthFacts_gadget
        · intro w hw
          simp only [constraintVars, List.map_cons, List.map_nil, List.mem_append,
            List.mem_cons, List.not_mem_nil, or_false] at hw
          rcases hw with ((rfl | rfl) | rfl) | rfl
          · refine Or.inr (Or.inl ?_)
            simp [varsOf]
          · refine Or.inr (Or.inl ?_)
            refine List.mem_append.mpr (Or.inr ?_)
            exact List.mem_map_of_mem _ (List.getElem?_mem hcidx)
          · exact Or.inl rfl
          · exact Or.inr (Or.inr rfl)
        · rfl
      have hS : ∀ w ∈ varsOf es ++ varsOf rcs,
          VarOK (varsOf (e :: es) ++ varsOf rcs) cs.aux.length
            (cs.aux ++ [some (v + rv.getD off 0)]).length [] w := by
        intro w hw
        refine Or.inr (Or.inl ?_)
        rcases List.mem_append.mp hw with h | h
        · exact List.mem_append.mpr (Or.inl (by simp [varsOf] at h ⊢; exact Or.inr h))
        · exact List.mem_append.mpr (Or.inr h)
      have hsf := synthFacts_comp hT1 hsf2 hS
      have hcs'len : cs'.aux.length = cs.aux.length + (1 + es.length) := by
        obtain ⟨L1, hL1, hL1len⟩ := hsf.auxEq
        simp [hL1, hL1len]
      refine ⟨⟨Var.aux cs.aux.length, some (v + rv.getD off 0)⟩ :: es'', cs', ?_, ?_, ?_, ?_⟩
      · simp only [addRoundConstantsLoop, hcidx]
        rw [mbind_ok (add_ok h1 hcval cs), mbind_ok heq2]
        simp only [mpure, List.length_cons]
        have harith : off + 1 + es.length = off + (es.length + 1) := by omega
        rw [harith]
      · simp only [refRoundConstantsAdd]
        exact valued_cons rfl hval2
      · simp only [List.length_cons]
        have harith2 : es.length + 1 = 1 + es.length := by omega
        rw [harith2]
        simpa using hsf
      · intro w hw
        simp only [varsOf, List.map_cons, List.mem_cons] at hw
        rcases hw with rfl | hw
        · exact ⟨cs.aux.length, rfl, le_rfl, by omega, by simp⟩
        · obtain ⟨i, rfl, hi1, hi2, _⟩ := hfresh2 w hw
          simp only [List.length_append, List.length_cons, List.length_nil] at hi1
          exact ⟨i, rfl, by omega, hi2, by simp⟩

/-- The S-box loop of `full_round`: produces the fifth powers and adds three
constraints and three fresh variables per element. -/
theorem sboxLoop_ok : ∀ (es : List (AllocatedNum F)) (vs : List F) (cs : CS F),
    valued es vs →
    ∃ es' cs',
      sboxLoop es cs = .ok (es', cs') ∧
      valued es' (refSboxAll vs) ∧
      SynthFacts (varsOf es) cs cs' [] (3 * es.length) (3 * es.length) ∧
      varsFresh cs.aux.length cs'.aux.length [] (varsOf es') := by
  intro es
  induction es with
  | nil =>
    intro vs cs hv
    cases hv
    refine ⟨[], cs, by simp [sboxLoop, mpure], ?_, by simpa using synthFacts_refl _ cs, ?_⟩
    · simp only [refSboxAll, List.map_nil]
      exact valued_nil
    · simp [varsOf, varsFresh]
  | cons e es ih =>
    intro vs cs hv
    cases hv with
    | @cons _ x _ vs h1 h2 =>
      obtain ⟨es'', cs', heq2, hval2, hsf2, hfresh2⟩ :=
        ih vs ⟨cs.aux ++ [some (x * x), some (x * x * (x * x)), some (x * x * (x * x) * x)],
          cs.constraints ++
            [⟨[(e.var, 1)], [(e.var, 1)], [(Var.aux cs.aux.length, 1)]⟩,
             ⟨[(Var.aux cs.aux.length, 1)], [(Var.aux cs.aux.length, 1)],
               [(Var.aux (cs.aux.length + 1), 1)]⟩,
             ⟨[(Var.aux (cs.aux.length + 1), 1)], [(e.var, 1)],
               [(Var.aux (cs.aux.length + 2), 1)]⟩]⟩ h2
      have hT1 : SynthFacts (varsOf (e :: es)) cs
          ⟨cs.aux ++ [some (x * x), some (x * x * (x * x)), some (x * x * (x * x) * x)],
           cs.constraints ++
             [⟨[(e.var, 1)], [(e.var, 1)], [(Var.aux cs.aux.length, 1)]⟩,
              ⟨[(Var.aux cs.aux.length, 1)], [(Var.aux cs.aux.length, 1)],
                [(Var.aux (cs.aux.length + 1), 1)]⟩,
              ⟨[(Var.aux (cs.aux.length + 1), 1)], [(e.var, 1)],
                [(Var.aux (cs.aux.length + 2), 1)]⟩]⟩ [] 3 3 :=
        synthFacts_mono (synthFacts_s_box e x cs) (by simp [varsOf])
      have hS : ∀ w ∈ varsOf es,
          VarOK (varsOf (e :: es)) cs.aux.length
            (cs.aux ++ [some (x * x), some (x * x * (x * x)),
              some (x * x * (x * x) * x)]).length [] w := by
        intro w hw
        refine Or.inr (Or.inl ?_)
        simp [varsOf] at hw ⊢
        exact Or.inr hw
      have hsf := synthFacts_comp hT1 hsf2 hS
      have hcs'len : cs'.aux.length = cs.aux.length + (3 + 3 * es.length) := by
        obtain ⟨L1, hL1, hL1len⟩ := hsf.auxEq
        simp [hL1, hL1len]
      have hx5 : x * x * (x * x) * x = x ^ 5 := by ring
      refine ⟨⟨Var.aux (cs.aux.length + 2), some (x * x * (x * x) * x)⟩ :: es'', cs', ?_, ?_,
        ?_, ?_⟩
      · rw [sboxLoop, mbind_ok (quintic_s_box_ok h1 cs), mbind_ok heq2]
        simp [mpure]
      · simp only [refSboxAll, List.map_cons]
        refine valued_cons ?_ hval2
        simp [hx5]
      · have harith1 : 3 * (e :: es).length = 3 + 3 * es.length := by
          simp only [List.length_cons]
          omega
        rw [harith1]
        simpa using hsf
      · intro w hw
        simp only [varsOf, List.map_cons, List.mem_cons] at hw
        rcases hw with rfl | hw
        · exact ⟨cs.aux.length + 2, rfl, by omega, by omega, by simp⟩
        · obtain ⟨i, rfl, hi1, hi2, _⟩ := hfresh2 w hw
          simp only [List.length_append, List.length_cons, List.length_nil] at hi1
          exact ⟨i, rfl, by omega, hi2, by simp⟩

theorem matrixValued_get {m : List (List (AllocatedNum F))} {vs : List (List F)}
    (h : matrixValued m vs) : ∀ j, j < vs.length →
      ∃ row, m[j]? = some row ∧ valued row (vs.getD j []) := by
  induction h with
  | nil => intro j hj; simp at hj
  | @cons r rv m vs h1 h2 ih =>
    intro j hj
    match j with
    | 0 => exact ⟨r, by simp, by simpa using h1⟩
    | j + 1 => simpa using ih j (by simpa using hj)

/-- The inner loop of `product_mds`: one multiplication constraint and one
fresh product variable per index, with the expected product values. -/
theorem rowProductsLoop_ok {row els : List (AllocatedNum F)} {rowV vs : List F}
    (hrow : valued row rowV) (hels : valued els vs) :
    ∀ (ks : List Nat) (cs : CS F),
      (∀ k ∈ ks, k < rowV.length ∧ k < vs.length) →
      ∃ ps cs',
        rowProductsLoop row els ks cs = .ok (ps, cs') ∧
        valued ps (ks.map fun k => rowV.getD k 0 * vs.getD k 0) ∧
        SynthFacts (varsOf row ++ varsOf els) cs cs' [] ks.length ks.length ∧
        varsFresh cs.aux.length cs'.aux.length [] (varsOf ps) := by
  intro ks
  induction ks with
  | nil =>
    intro cs _
    refine ⟨[], cs, by simp [rowProductsLoop, mpure], by simpa using valued_nil,
      by simpa using synthFacts_refl _ cs, ?_⟩
    simp [varsOf, varsFresh]
  | cons k ks ih =>
    intro cs hk
    have hk1 := (hk k (List.mem_cons_self k ks)).1
    have hk2 := (hk k (List.mem_cons_self k ks)).2
    obtain ⟨a, haidx, haval⟩ := valued_get hrow k hk1
    obtain ⟨b, hbidx, hbval⟩ := valued_get hels k hk2
    obtain ⟨ps', cs', heq2, hval2, hsf2, hfresh2⟩ :=
      ih ⟨cs.aux ++ [some (rowV.getD k 0 * vs.getD k 0)],
        cs.constraints ++ [⟨[(a.var, 1)], [(b.var, 1)], [(Var.aux cs.aux.length, 1)]⟩]⟩
        (fun k hk' => hk k (List.mem_cons_of_mem _ hk'))
    have hT1 : SynthFacts (varsOf row ++ varsOf els) cs
        ⟨cs.aux ++ [some (rowV.getD k 0 * vs.getD k 0)],
         cs.constraints ++ [⟨[(a.var, 1)], [(b.var, 1)], [(Var.aux cs.aux.length, 1)]⟩]⟩
        [] 1 1 := by
      apply synthFacts_gadget
      · intro w hw
        simp only [constraintVars, List.map_cons, List.map_nil, List.mem_append,
          List.mem_cons, List.not_mem_nil, or_false] at hw
        rcases hw with (rfl | rfl) | rfl
        · refine Or.inr (Or.inl (List.mem_append.mpr (Or.inl ?_)))
          exact List.mem_map_of_mem _ (List.getElem?_mem haidx)
        · refine Or.inr (Or.inl (List.mem_append.mpr (Or.inr ?_)))
          exact List.mem_map_of_mem _ (List.getElem?_mem hbidx)
        · exact Or.inr (Or.inr rfl)
      · rfl
    have hS : ∀ w ∈ varsOf row ++ varsOf els,
        VarOK (varsOf row ++ varsOf els) cs.aux.length
          (cs.aux ++ [some (rowV.getD k 0 * vs.getD k 0)]).length [] w :=
      fun w hw => Or.inr (Or.inl hw)
    have hsf := synthFacts_comp hT1 hsf2 hS
    refine ⟨⟨Var.aux cs.aux.length, some (rowV.getD k 0 * vs.getD k 0)⟩ :: ps', cs', ?_, ?_,
      ?_, ?_⟩
    · simp only [rowProductsLoop, haidx, hbidx]
      rw [mbind_ok (mul_ok haval hbval cs), mbind_ok heq2]
      simp [mpure]
    · simp only [List.map_cons]
      exact valued_cons rfl hval2
    · simp only [List.length_cons]
      have harith : ks.length + 1 = 1 + ks.length := by omega
      rw [harith]
      simpa using hsf
    · have hcs'len : cs'.aux.length = cs.aux.length + (1 + ks.length) := by
        obtain ⟨L1, hL1, hL1len⟩ := hsf.auxEq
        simp [hL1, hL1len]
      intro w hw
      simp only [varsOf, List.map_cons, List.mem_cons] at hw
      rcases hw with rfl | hw
      · exact ⟨cs.aux.length, rfl, le_rfl, by omega, by simp⟩
      · obtain ⟨i, rfl, hi1, hi2, _⟩ := hfresh2 w hw
        simp only [List.length_append, List.length_cons, List.length_nil] at hi1
        exact ⟨i, rfl, by omega, hi2, by simp⟩

/-- One row of `product_mds`: allocates the `intial sum` zero variable at
index `cs.aux.length` (mentioned by no constraint), then `W` product
variables with their constraints and the `multi_add` fold, producing the
reference row value. -/
theorem mdsRow_ok {mds : List (List (AllocatedNum F))} {mdsV : List (List F)}
    {els : List (AllocatedNum F)} {vs : List F} {W : Nat}
    (hm : matrixValued mds mdsV) (hels : valued els vs)
    (hW : W ≤ vs.length) (hrows : ∀ r ∈ mdsV, W ≤ r.length)
    (j : Nat) (cs : CS F) (hj : j < mdsV.length) :
    ∃ r cs',
      mdsRow W mds els j cs = .ok (r, cs') ∧
      r.value = some (refMdsRow W mdsV vs j) ∧
      SynthFacts (matrixVars mds ++ varsOf els) cs cs' [cs.aux.length] (W + 2) (W + 1) ∧
      ∃ i, r.var = Var.aux i ∧ cs.aux.length < i ∧ i < cs'.aux.length := by
  obtain ⟨rowA, hjidx, hrowval⟩ := matrixValued_get hm j hj
  have hrowlen : W ≤ (mdsV.getD j []).length := by
    apply hrows
    rw [List.getD_eq_getElem?_getD, List.getElem?_eq_getElem hj]
    exact List.getElem_mem hj
  obtain ⟨ps, cs2, heqP, hvalP, hsfP, hfreshP⟩ :=
    rowProductsLoop_ok hrowval hels (List.range W) ⟨cs.aux ++ [some 0], cs.constraints⟩
      (by intro k hk; have := List.mem_range.mp hk; omega)
  have hT0 := synthFacts_allocZero (matrixVars mds ++ varsOf els) cs
  have hrowsub : ∀ w ∈ varsOf rowA, w ∈ matrixVars mds := by
    intro w hw
    exact List.mem_flatten.mpr ⟨varsOf rowA,
      List.mem_map_of_mem _ (List.getElem?_mem hjidx), hw⟩
  have hA := synthFacts_comp hT0 hsfP (by
    intro w hw
    refine Or.inr (Or.inl ?_)
    rcases List.mem_append.mp hw with h | h
    · exact List.mem_append.mpr (Or.inl (hrowsub w h))
    · exact List.mem_append.mpr (Or.inr h))
  have hcs0len : (CS.mk (cs.aux ++ [some 0]) cs.constraints).aux.length = cs.aux.length + 1 := by
    simp
  have hcs2len : cs2.aux.length = cs.aux.length + 1 + W := by
    obtain ⟨L, hL, hLlen⟩ := hsfP.auxEq
    simp [hL, hLlen]
    omega
  have hTM : SynthFacts (varsOf ps) cs2
      ⟨cs2.aux ++ [some ((((List.range W).map fun k =>
          (mdsV.getD j []).getD k 0 * vs.getD k 0)).foldl (· + ·) 0)],
       cs2.constraints ++
         [⟨ps.map fun n => (n.var, (1 : F)), [(Var.one, 1)],
           [(Var.aux cs2.aux.length, 1)]⟩]⟩ [] 1 1 := by
    apply synthFacts_gadget
    · intro w hw
      simp only [constraintVars, List.map_map, List.map_cons, List.map_nil, List.mem_append,
        List.mem_cons, List.not_mem_nil, or_false] at hw
      rcases hw with (hw | rfl) | rfl
      · refine Or.inr (Or.inl ?_)
        simpa [varsOf, Function.comp] using hw
      · exact Or.inl rfl
      · exact Or.inr (Or.inr rfl)
    · rfl
  have hB := synthFacts_comp hA hTM (by
    intro w hw
    obtain ⟨i, rfl, hi1, hi2, _⟩ := hfreshP w hw
    rw [hcs0len] at hi1
    refine Or.inr (Or.inr ⟨i, rfl, by omega, hi2, by simp; omega⟩))
  refine ⟨⟨Var.aux cs2.aux.length,
      some ((((List.range W).map fun k =>
        (mdsV.getD j []).getD k 0 * vs.getD k 0)).foldl (· + ·) 0)⟩,
    ⟨cs2.aux ++ [some ((((List.range W).map fun k =>
        (mdsV.getD j []).getD k 0 * vs.getD k 0)).foldl (· + ·) 0)],
     cs2.constraints ++
       [⟨ps.map fun n => (n.var, (1 : F)), [(Var.one, 1)],
         [(Var.aux cs2.aux.length, 1)]⟩]⟩, ?_, ?_, ?_, ?_⟩
  · unfold mdsRow
    rw [mbind_ok (alloc_ok 0 cs)]
    simp only [hjidx]
    rw [mbind_ok heqP, multi_add_ok hvalP cs2]
  · simp [refMdsRow]
  · have h1 : W + 2 = 1 + W + 1 := by omega
    have h2 : W + 1 = 0 + W + 1 := by omega
    rw [h1, h2]
    simpa using hB
  · refine ⟨cs2.aux.length, rfl, by omega, ?_⟩
    simp

/-- The outer loop of `product_mds`: one `intial sum` zero variable per
output row, `W·(W+2)` fresh variables and `W·(W+1)` constraints in total,
with the reference row values. -/
theorem mdsRowsLoop_ok {mds : List (List (AllocatedNum F))} {mdsV : List (List F)}
    {els : List (AllocatedNum F)} {vs : List F} {W : Nat}
    (hm : matrixValued mds mdsV) (hels : valued els vs)
    (hW : W ≤ vs.length) (hrows : ∀ r ∈ mdsV, W ≤ r.length) :
    ∀ (js : List Nat) (cs : CS F), (∀ j ∈ js, j < mdsV.length) →
      ∃ rs cs' zs,
        mdsRowsLoop W mds els js cs = .ok (rs, cs') ∧
        valued rs (js.map (refMdsRow W mdsV vs)) ∧
        zs.length = js.length ∧
        SynthFacts (matrixVars mds ++ varsOf els) cs cs' zs
          (js.length * (W + 2)) (js.length * (W + 1)) ∧
        varsFresh cs.aux.length cs'.aux.length zs (varsOf rs) := by
  intro js
  induction js with
  | nil =>
    intro cs _
    refine ⟨[], cs, [], by simp [mdsRowsLoop, mpure], by simpa using valued_nil, rfl,
      by simpa using synthFacts_refl _ cs, ?_⟩
    simp [varsOf, varsFresh]
  | cons j js ih =>
    intro cs hjs
    obtain ⟨r, cs1, heq1, hval1, hsf1, i, hivar, hilo, hihi⟩ :=
      mdsRow_ok hm hels hW hrows j cs (hjs j (List.mem_cons_self j js))
    obtain ⟨rs, cs', zs2, heq2, hval2, hzs2len, hsf2, hfresh2⟩ :=
      ih cs1 (fun j' hj' => hjs j' (List.mem_cons_of_mem _ hj'))
    have hS : ∀ w ∈ matrixVars mds ++ varsOf els,
        VarOK (matrixVars mds ++ varsOf els) cs.aux.length cs1.aux.length [cs.aux.length] w :=
      fun w hw => Or.inr (Or.inl hw)
    have hsf := synthFacts_comp hsf1 hsf2 hS
    have hcs1le : cs1.aux.length ≤ cs'.aux.length := by
      obtain ⟨L, hL, _⟩ := hsf2.auxEq
      simp [hL]
    have hzs2lo : ∀ z ∈ zs2, cs1.aux.length ≤ z := fun z hz => (hsf2.zsOK z hz).1
    refine ⟨r :: rs, cs', cs.aux.length :: zs2, ?_, ?_, ?_, ?_, ?_⟩
    · rw [mdsRowsLoop, mbind_ok heq1, mbind_ok heq2]
      simp [mpure]
    · simp only [List.map_cons]
      exact valued_cons hval1 hval2
    · simp [hzs2len]
    · simp only [List.length_cons]
      have h1 : (js.length + 1) * (W + 2) = W + 2 + js.length * (W + 2) := by ring
      have h2 : (js.length + 1) * (W + 1) = W + 1 + js.length * (W + 1) := by ring
      rw [h1, h2]
      simpa using hsf
    · intro w hw
      simp only [varsOf, List.map_cons, List.mem_cons] at hw
      rcases hw with rfl | hw
      · refine ⟨i, hivar, by omega, by omega, ?_⟩
        intro hmem
        rcases List.mem_cons.mp hmem with h | h
        · omega
        · exact absurd (hzs2lo i h) (by omega)
      · obtain ⟨i', rfl, hi1, hi2, hi3⟩ := hfresh2 w hw
        have hcslt : cs.aux.length < cs1.aux.length := by omega
        refine ⟨i', rfl, by omega, hi2, ?_⟩
        intro hmem
        rcases List.mem_cons.mp hmem with h | h
        · omega
        · exact hi3 h

/-- `product_mds`: replaces the elements by the reference MDS product,
adding `W` zero variables, `W·(W+2)` fresh variables and `W·(W+1)`
constraints, leaving all other circuit fields unchanged. -/
theorem product_mds_ok {mds : List (List (AllocatedNum F))} {mdsV : List (List F)}
    {vs : List F} {W : Nat}
    (hm : matrixValued mds mdsV) (hWm : W ≤ mdsV.length)
    (hrows : ∀ r ∈ mdsV, W ≤ r.length)
    (p : PoseidonCircuit F) (cs : CS F)
    (hpm : p.mds_matrix = mds) (hels : valued p.elements vs) (hW : W ≤ vs.length) :
    ∃ rs cs' zs,
      product_mds W p cs = .ok ({ p with elements := rs }, cs') ∧
      valued rs (refProductMds W mdsV vs) ∧
      rs.length = W ∧
      zs.length = W ∧
      SynthFacts (matrixVars mds ++ varsOf p.elements) cs cs' zs
        (W * (W + 2)) (W * (W + 1)) ∧
      varsFresh cs.aux.length cs'.aux.length zs (varsOf rs) := by
  obtain ⟨rs, cs', zs, heq, hval, hzslen, hsf, hfresh⟩ :=
    mdsRowsLoop_ok hm hels hW hrows (List.range W) cs
      (fun j hj => lt_of_lt_of_le (List.mem_range.mp hj) hWm)
  refine ⟨rs, cs', zs, ?_, hval, ?_, by simpa using hzslen, by simpa using hsf, hfresh⟩
  · unfold product_mds
    rw [hpm, mbind_ok heq]
    simp [mpure]
  · have := valued_length hval
    simpa [refProductMds] using this

theorem refRoundConstantsAdd_spec (rv : List F) : ∀ (vs : List F) (off : Nat),
    ((refRoundConstantsAdd rv vs off).1).length = vs.length ∧
    (refRoundConstantsAdd rv vs off).2 = off + vs.length := by
  intro vs
  induction vs with
  | nil => intro off; simp [refRoundConstantsAdd]
  | cons v vs ih =>
    intro off
    obtain ⟨h1, h2⟩ := ih (off + 1)
    have e : refRoundConstantsAdd rv (v :: vs) off =
        ((v + rv.getD off 0) :: (refRoundConstantsAdd rv vs (off + 1)).1,
         (refRoundConstantsAdd rv vs (off + 1)).2) := rfl
    rw [e]
    refine ⟨by simp [h1], ?_⟩
    simp only [h2, List.length_cons]
    omega

theorem refSboxAll_length (vs : List F) : (refSboxAll vs).length = vs.length := by
  simp [refSboxAll]

/-- One full round of the circuit: advances the cursor by exactly `W`,
keeps the state width at `W`, produces the reference full-round values, and
adds `W² + 6W` variables (of which `W` are the zero `intial sum` variables)
and `W² + 5W` constraints. -/
theorem full_round_ok {rcsA : List (AllocatedNum F)} {rv : List F}
    {mds : List (List (AllocatedNum F))} {mdsV : List (List F)} {W : Nat}
    (hr : valued rcsA rv) (hm : matrixValued mds mdsV)
    (hWm : W ≤ mdsV.length) (hrows : ∀ r ∈ mdsV, W ≤ r.length)
    (p : PoseidonCircuit F) (vs : List F) (cs : CS F)
    (hprc : p.round_constants = rcsA) (hpm : p.mds_matrix = mds)
    (hels : valued p.elements vs) (hlen : p.elements.length = W)
    (hoff : p.constants_offset + W ≤ rv.length) :
    ∃ p' cs' zs,
      full_round W p cs = .ok (p', cs') ∧
      p'.round_constants = rcsA ∧ p'.mds_matrix = mds ∧
      p'.full_rounds = p.full_rounds ∧ p'.partial_rounds = p.partial_rounds ∧
      p'.constants_offset = p.constants_offset + W ∧
      valued p'.elements (refFullRound W mdsV rv (vs, p.constants_offset)).1 ∧
      p'.elements.length = W ∧
      (refFullRound W mdsV rv (vs, p.constants_offset)).2 = p.constants_offset + W ∧
      zs.length = W ∧
      SynthFacts (varsOf p.elements ++ varsOf rcsA ++ matrixVars mds) cs cs' zs
        (W * W + 6 * W) (W * W + 5 * W) ∧
      varsFresh cs.aux.length cs'.aux.length zs (varsOf p'.elements) := by
  have hvslen : vs.length = W := by rw [← valued_length hels, hlen]
  obtain ⟨es1, cs1, heq1, hval1, hsf1, hfresh1⟩ :=
    addRoundConstantsLoop_ok hr p.elements vs p.constants_offset cs hels (by omega)
  have hes1len : es1.length = W := by
    rw [valued_length hval1, (refRoundConstantsAdd_spec rv vs p.constants_offset).1, hvslen]
  obtain ⟨es2, cs2, heq2, hval2, hsf2, hfresh2⟩ :=
    sboxLoop_ok es1 (refRoundConstantsAdd rv vs p.constants_offset).1 cs1 hval1
  have hes2len : es2.length = W := by
    rw [valued_length hval2, refSboxAll_length,
      (refRoundConstantsAdd_spec rv vs p.constants_offset).1, hvslen]
  obtain ⟨rs, cs3, zs, heq3, hval3, hrslen, hzslen, hsf3, hfresh3⟩ :=
    product_mds_ok hm hWm hrows
      ({ p with elements := es2, constants_offset := p.constants_offset + p.elements.length })
      cs2
      (by simp [hpm]) (by simpa using hval2)
      (by rw [refSboxAll_length, (refRoundConstantsAdd_spec rv vs p.constants_offset).1, hvslen])
  have hARC : add_round_constants p cs =
      .ok ({ p with elements := es1, constants_offset := p.constants_offset + p.elements.length },
        cs1) := by
    unfold add_round_constants
    rw [hprc, mbind_ok heq1]
    simp [mpure]
  -- lengths of the intermediate constraint systems
  have hcs1len : cs1.aux.length = cs.aux.length + W := by
    obtain ⟨L, hL, hLlen⟩ := hsf1.auxEq
    simp [hL, hLlen, hlen]
  have hcs2len : cs2.aux.length = cs1.aux.length + 3 * W := by
    obtain ⟨L, hL, hLlen⟩ := hsf2.auxEq
    simp [hL, hLlen, hes1len]
  have hcs3len : cs3.aux.length = cs2.aux.length + W * (W + 2) := by
    obtain ⟨L, hL, hLlen⟩ := hsf3.auxEq
    simp [hL, hLlen]
  -- composed synthesis facts
  have hT1 : SynthFacts (varsOf p.elements ++ varsOf rcsA ++ matrixVars mds) cs cs1 []
      p.elements.length p.elements.length :=
    synthFacts_mono hsf1 (by intro w hw; exact List.mem_append.mpr (Or.inl hw))
  have hT12 := synthFacts_comp hT1 hsf2 (by
    intro w hw
    obtain ⟨i, rfl, hi1, hi2, _⟩ := hfresh1 w hw
    exact Or.inr (Or.inr ⟨i, rfl, hi1, hi2, by simp⟩))
  have hT123 := synthFacts_comp hT12 hsf3 (by
    intro w hw
    rcases List.mem_append.mp hw with h | h
    · exact Or.inr (Or.inl (List.mem_append.mpr (Or.inr h)))
    · obtain ⟨i, rfl, hi1, hi2, _⟩ := hfresh2 w (by simpa using h)
      exact Or.inr (Or.inr ⟨i, rfl, by omega, hi2, by simp⟩))
  refine ⟨{ p with elements := rs, constants_offset := p.constants_offset + p.elements.length },
    cs3, zs, ?_, by simp [hprc],
    by simp [hpm], by simp, by simp, by simp [hlen], ?_, by simpa using hrslen, ?_, hzslen,
    ?_, ?_⟩
  · unfold full_round
    rw [mbind_ok hARC]
    rw [mbind_ok (by simpa using heq2)]
    simpa using heq3
  · simp only [refFullRound]
    simpa using hval3
  · simp only [refFullRound, (refRoundConstantsAdd_spec rv vs p.constants_offset).2, hvslen]
  · have h1 : W * W + 6 * W = p.elements.length + 3 * es1.length + W * (W + 2) := by
      rw [hlen, hes1len]; ring
    have h2 : W * W + 5 * W = p.elements.length + 3 * es1.length + W * (W + 1) := by
      rw [hlen, hes1len]; ring
    rw [h1, h2]
    simpa using hT123
  · intro w hw
    obtain ⟨i, rfl, hi1, hi2, hi3⟩ := hfresh3 w (by simpa using hw)
    exact ⟨i, rfl, by omega, hi2, hi3⟩

theorem valued_cons_inv {n : AllocatedNum F} {ns : List (AllocatedNum F)} {vs : List F}
    (h : valued (n :: ns) vs) :
    ∃ v vs', vs = v :: vs' ∧ n.value = some v ∧ valued ns vs' := by
  cases h with
  | cons h1 h2 => exact ⟨_, _, rfl, h1, h2⟩

/-- One partial round of the circuit: advances the cursor by exactly `W`,
keeps the state width at `W`, produces the reference partial-round values,
and adds `W² + 3W + 3` variables (of which `W` are the zero `intial sum`
variables) and `W² + 2W + 3` constraints. -/
theorem partial_round_ok {rcsA : List (AllocatedNum F)} {rv : List F}
    {mds : List (List (AllocatedNum F))} {mdsV : List (List F)} {W : Nat}
    (hr : valued rcsA rv) (hm : matrixValued mds mdsV)
    (hWm : W ≤ mdsV.length) (hrows : ∀ r ∈ mdsV, W ≤ r.length) (hW0 : 0 < W)
    (p : PoseidonCircuit F) (vs : List F) (cs : CS F)
    (hprc : p.round_constants = rcsA) (hpm : p.mds_matrix = mds)
    (hels : valued p.elements vs) (hlen : p.elements.length = W)
    (hoff : p.constants_offset + W ≤ rv.length) :
    ∃ p' cs' zs,
      partial_round W p cs = .ok (p', cs') ∧
      p'.round_constants = rcsA ∧ p'.mds_matrix = mds ∧
      p'.full_rounds = p.full_rounds ∧ p'.partial_rounds = p.partial_rounds ∧
      p'.constants_offset = p.constants_offset + W ∧
      valued p'.elements (refPartialRound W mdsV rv (vs, p.constants_offset)).1 ∧
      p'.elements.length = W ∧
      (refPartialRound W mdsV rv (vs, p.constants_offset)).2 = p.constants_offset + W ∧
      zs.length = W ∧
      SynthFacts (varsOf p.elements ++ varsOf rcsA ++ matrixVars mds) cs cs' zs
        (W * W + 3 * W + 3) (W * W + 2 * W + 3) ∧
      varsFresh cs.aux.length cs'.aux.length zs (varsOf p'.elements) := by
  have hvslen : vs.length = W := by rw [← valued_length hels, hlen]
  obtain ⟨es1, cs1, heq1, hval1, hsf1, hfresh1⟩ :=
    addRoundConstantsLoop_ok hr p.elements vs p.constants_offset cs hels (by omega)
  have hes1len : es1.length = W := by
    rw [valued_length hval1, (refRoundConstantsAdd_spec rv vs p.constants_offset).1, hvslen]
  obtain ⟨e, rest, rfl⟩ : ∃ e rest, es1 = e :: rest := by
    cases es1 with
    | nil => simp at hes1len; omega
    | cons e rest => exact ⟨e, rest, rfl⟩
  obtain ⟨x, restV, hvs1eq, hx, hrestval⟩ := valued_cons_inv hval1
  have hx5 : x * x * (x * x) * x = x ^ 5 := by ring
  have hsbval : valued (⟨Var.aux (cs1.aux.length + 2), some (x * x * (x * x) * x)⟩ :: rest)
      (refSboxFirst (refRoundConstantsAdd rv vs p.constants_offset).1) := by
    rw [hvs1eq]
    simp only [refSboxFirst]
    exact valued_cons (by simp [hx5]) hrestval
  obtain ⟨rs, cs3, zs, heq3, hval3, hrslen, hzslen, hsf3, hfresh3⟩ :=
    product_mds_ok hm hWm hrows
      ({ p with
          elements := ⟨Var.aux (cs1.aux.length + 2), some (x * x * (x * x) * x)⟩ :: rest,
          constants_offset := p.constants_offset + p.elements.length })
      ⟨cs1.aux ++ [some (x * x), some (x * x * (x * x)), some (x * x * (x * x) * x)],
       cs1.constraints ++
         [⟨[(e.var, 1)], [(e.var, 1)], [(Var.aux cs1.aux.length, 1)]⟩,
          ⟨[(Var.aux cs1.aux.length, 1)], [(Var.aux cs1.aux.length, 1)],
            [(Var.aux (cs1.aux.length + 1), 1)]⟩,
          ⟨[(Var.aux (cs1.aux.length + 1), 1)], [(e.var, 1)],
            [(Var.aux (cs1.aux.length + 2), 1)]⟩]⟩
      (by simp [hpm]) (by simpa using hsbval)
      (by
        rw [hvs1eq]
        simp only [refSboxFirst, List.length_cons]
        have h2 := valued_length hrestval
        simp only [List.length_cons] at hes1len
        omega)
  have hARC : add_round_constants p cs =
      .ok ({ p with elements := e :: rest, constants_offset := p.constants_offset + p.elements.length },
        cs1) := by
    unfold add_round_constants
    rw [hprc, mbind_ok heq1]
    simp [mpure]
  have hcs1len : cs1.aux.length = cs.aux.length + W := by
    obtain ⟨L, hL, hLlen⟩ := hsf1.auxEq
    simp [hL, hLlen, hlen]
  have hcs3len : cs3.aux.length = cs1.aux.length + 3 + W * (W + 2) := by
    obtain ⟨L, hL, hLlen⟩ := hsf3.auxEq
    simp [hL, hLlen]
    omega
  have hT1 : SynthFacts (varsOf p.elements ++ varsOf rcsA ++ matrixVars mds) cs cs1 []
      p.elements.length p.elements.length :=
    synthFacts_mono hsf1 (by intro w hw; exact List.mem_append.mpr (Or.inl hw))
  have hT2 := synthFacts_s_box e x cs1
  have hT12 := synthFacts_comp hT1 hT2 (by
    intro w hw
    simp only [List.mem_singleton] at hw
    subst hw
    obtain ⟨i, hvar, hi1, hi2, _⟩ := hfresh1 e.var (by simp [varsOf])
    exact Or.inr (Or.inr ⟨i, hvar, hi1, hi2, by simp⟩))
  have hT123 := synthFacts_comp hT12 hsf3 (by
    intro w hw
    rcases List.mem_append.mp hw with h | h
    · exact Or.inr (Or.inl (List.mem_append.mpr (Or.inr h)))
    · have h' : w = Var.aux (cs1.aux.length + 2) ∨ w ∈ varsOf rest := by
        simpa [varsOf] using h
      rcases h' with rfl | h'
      · refine Or.inr (Or.inr ⟨cs1.aux.length + 2, rfl, by omega, ?_, by simp⟩)
        simp only [List.length_append, List.length_cons, List.length_nil]
        omega
      · obtain ⟨i, rfl, hi1, hi2, _⟩ := hfresh1 w (by simp [varsOf]; right; simpa [varsOf] using h')
        refine Or.inr (Or.inr ⟨i, rfl, hi1, ?_, by simp⟩)
        simp only [List.length_append, List.length_cons, List.length_nil]
        omega)
  refine ⟨{ p with elements := rs, constants_offset := p.constants_offset + p.elements.length },
    cs3, zs, ?_, by simp [hprc], by simp [hpm], by simp, by simp, by simp [hlen], ?_,
    by simpa using hrslen, ?_, hzslen, ?_, ?_⟩
  · unfold partial_round
    rw [mbind_ok hARC]
    show mbind (quintic_s_box e) _ cs1 = _
    rw [mbind_ok (quintic_s_box_ok hx cs1)]
    simpa using heq3
  · simp only [refPartialRound]
    simpa using hval3
  · simp only [refPartialRound, (refRoundConstantsAdd_spec rv vs p.constants_offset).2, hvslen]
  · have h1 : W * W + 3 * W + 3 = p.elements.length + 3 + W * (W + 2) := by
      rw [hlen]; ring
    have h2 : W * W + 2 * W + 3 = p.elements.length + 3 + W * (W + 1) := by
      rw [hlen]; ring
    rw [h1, h2]
    simpa using hT123
  · intro w hw
    obtain ⟨i, rfl, hi1, hi2, hi3⟩ := hfresh3 w (by simpa using hw)
    simp only [List.length_append, List.length_cons, List.length_nil] at hi1
    exact ⟨i, rfl, by omega, hi2, hi3⟩

theorem full_round_spec {rcsA : List (AllocatedNum F)} {rv : List F}
    {mds : List (List (AllocatedNum F))} {mdsV : List (List F)} {W : Nat}
    (hr : valued rcsA rv) (hm : matrixValued mds mdsV)
    (hWm : W ≤ mdsV.length) (hrows : ∀ r ∈ mdsV, W ≤ r.length) :
    RoundSpec rcsA rv mds W (W * W + 6 * W) (W * W + 5 * W)
      (full_round W) (refFullRound W mdsV rv) := by
  intro p vs cs h1 h2 h3 h4 h5
  exact full_round_ok hr hm hWm hrows p vs cs h1 h2 h3 h4 h5

theorem partial_round_spec {rcsA : List (AllocatedNum F)} {rv : List F}
    {mds : List (List (AllocatedNum F))} {mdsV : List (List F)} {W : Nat}
    (hr : valued rcsA rv) (hm : matrixValued mds mdsV)
    (hWm : W ≤ mdsV.length) (hrows : ∀ r ∈ mdsV, W ≤ r.length) (hW0 : 0 < W) :
    RoundSpec rcsA rv mds W (W * W + 3 * W + 3) (W * W + 2 * W + 3)
      (partial_round W) (refPartialRound W mdsV rv) := by
  intro p vs cs h1 h2 h3 h4 h5
  exact partial_round_ok hr hm hWm hrows hW0 p vs cs h1 h2 h3 h4 h5

/-- Iterating a round step `n` times: the cursor advances by exactly `n·W`,
never revisiting an index, the values follow the iterated reference step, and
the constraint/variable counts scale linearly. -/
theorem iterRounds_ok {rcsA : List (AllocatedNum F)} {rv : List F}
    {mds : List (List (AllocatedNum F))} {W auxN csN : Nat}
    {step : PoseidonCircuit F → M F (PoseidonCircuit F)}
    {refStep : List F × Nat → List F × Nat}
    (hstep : RoundSpec rcsA rv mds W auxN csN step refStep) :
    ∀ (n : Nat) (p : PoseidonCircuit F) (vs : List F) (cs : CS F),
      p.round_constants = rcsA → p.mds_matrix = mds →
      valued p.elements vs → p.elements.length = W →
      p.constants_offset + n * W ≤ rv.length →
      ∃ p' cs' zs,
        iterRoundsLoop step n p cs = .ok (p', cs') ∧
        p'.round_constants = rcsA ∧ p'.mds_matrix = mds ∧
        p'.full_rounds = p.full_rounds ∧ p'.partial_rounds = p.partial_rounds ∧
        p'.constants_offset = p.constants_offset + n * W ∧
        valued p'.elements (refRounds refStep n (vs, p.constants_offset)).1 ∧
        p'.elements.length = W ∧
        (refRounds refStep n (vs, p.constants_offset)).2 = p.constants_offset + n * W ∧
        zs.length = n * W ∧
        SynthFacts (varsOf p.elements ++ varsOf rcsA ++ matrixVars mds) cs cs' zs
          (n * auxN) (n * csN) ∧
        (∀ w ∈ varsOf p'.elements, w ∈ varsOf p.elements ∨
          ∃ i, w = Var.aux i ∧ cs.aux.length ≤ i ∧ i < cs'.aux.length ∧ i ∉ zs) := by
  intro n
  induction n with
  | zero =>
    intro p vs cs h1 h2 h3 h4 _
    refine ⟨p, cs, [], by simp [iterRoundsLoop, mpure], h1, h2, rfl, rfl, by simp, ?_, h4,
      by simp [refRounds], by simp, by simpa using synthFacts_refl _ cs, ?_⟩
    · simpa [refRounds] using h3
    · intro w hw
      exact Or.inl hw
  | succ n ih =>
    intro p vs cs h1 h2 h3 h4 hoff
    obtain ⟨p1, cs1, zs1, heq1, hrc1, hmds1, hfr1, hpr1, hoff1, hval1, hlen1, hcur1, hzs1len,
      hsf1, hfresh1⟩ := hstep p vs cs h1 h2 h3 h4
      (by have h := hoff; rw [Nat.succ_mul] at h; omega)
    obtain ⟨p', cs', zs2, heq2, hrc2, hmds2, hfr2, hpr2, hoff2, hval2, hlen2, hcur2, hzs2len,
      hsf2, helems2⟩ := ih p1 (refStep (vs, p.constants_offset)).1 cs1 hrc1 hmds1 hval1 hlen1
      (by rw [hoff1]; have h := hoff; rw [Nat.succ_mul] at h; omega)
    have hpair : ((refStep (vs, p.constants_offset)).1, p1.constants_offset) =
        refStep (vs, p.constants_offset) := by
      rw [hoff1, ← hcur1]
    have hcs1le : cs.aux.length ≤ cs1.aux.length := by
      obtain ⟨L, hL, _⟩ := hsf1.auxEq
      simp [hL]
    have hcs'le : cs1.aux.length ≤ cs'.aux.length := by
      obtain ⟨L, hL, _⟩ := hsf2.auxEq
      simp [hL]
    have hzs1lt : ∀ z ∈ zs1, z < cs1.aux.length := fun z hz => (hsf1.zsOK z hz).2.1
    have hzs2ge : ∀ z ∈ zs2, cs1.aux.length ≤ z := fun z hz => (hsf2.zsOK z hz).1
    have hsf := synthFacts_comp hsf1 hsf2 (by
      intro w hw
      rcases List.mem_append.mp hw with h | h
      · rcases List.mem_append.mp h with h' | h'
        · obtain ⟨i, rfl, hi1, hi2, hi3⟩ := hfresh1 w h'
          exact Or.inr (Or.inr ⟨i, rfl, hi1, hi2, hi3⟩)
        · exact Or.inr (Or.inl (List.mem_append.mpr
            (Or.inl (List.mem_append.mpr (Or.inr h')))))
      · exact Or.inr (Or.inl (List.mem_append.mpr (Or.inr h))))
    refine ⟨p', cs', zs1 ++ zs2, ?_, hrc2, hmds2, by rw [hfr2, hfr1], by rw [hpr2, hpr1],
      ?_, ?_, hlen2, ?_, ?_, ?_, ?_⟩
    · rw [iterRoundsLoop, mbind_ok heq1]
      exact heq2
    · rw [hoff2, hoff1]
      ring
    · rw [show refRounds refStep (n + 1) (vs, p.constants_offset) =
        refRounds refStep n (refStep (vs, p.constants_offset)) from rfl, ← hpair]
      exact hval2
    · rw [show refRounds refStep (n + 1) (vs, p.constants_offset) =
        refRounds refStep n (refStep (vs, p.constants_offset)) from rfl, ← hpair, hcur2,
        hoff1]
      ring
    · simp only [List.length_append, hzs1len, hzs2len]
      ring
    · have h1' : (n + 1) * auxN = auxN + n * auxN := by ring
      have h2' : (n + 1) * csN = csN + n * csN := by ring
      rw [h1', h2']
      exact hsf
    · intro w hw
      rcases helems2 w hw with h | ⟨i, rfl, hi1, hi2, hi3⟩
      · rcases hfresh1 w h with ⟨i, rfl, hi1, hi2, hi3⟩
        refine Or.inr ⟨i, rfl, hi1, by omega, ?_⟩
        intro hmem
        rcases List.mem_append.mp hmem with hm | hm
        · exact hi3 hm
        · exact absurd (hzs2ge i hm) (by omega)
      · refine Or.inr ⟨i, rfl, by omega, hi2, ?_⟩
        intro hmem
        rcases List.mem_append.mp hmem with hm | hm
        · exact absurd (hzs1lt i hm) (by omega)
        · exact hi3 hm

/-- `hash`: the three phases run in strict sequence (initial full rounds,
partial rounds, final full rounds); the result is the terminal `elements[1]`,
carrying the reference value; the cursor advances by exactly `W` per round
to `(2·(FR/2) + PR)·W`; and the constraint/variable counts are the phase
sums. -/
theorem hash_ok {rcsA : List (AllocatedNum F)} {rv : List F}
    {mds : List (List (AllocatedNum F))} {mdsV : List (List F)} {W : Nat}
    (hr : valued rcsA rv) (hm : matrixValued mds mdsV)
    (hWm : W ≤ mdsV.length) (hrows : ∀ r ∈ mdsV, W ≤ r.length) (hW2 : 2 ≤ W)
    (p : PoseidonCircuit F) (vs : List F) (cs : CS F)
    (hprc : p.round_constants = rcsA) (hpm : p.mds_matrix = mds)
    (hels : valued p.elements vs) (hlen : p.elements.length = W)
    (hoff : p.constants_offset +
      (p.full_rounds / 2 * W + p.partial_rounds * W + p.full_rounds / 2 * W) ≤ rv.length) :
    ∃ out p1 cs1 p2 cs2 p3 cs3 zs,
      hash W p cs = .ok (out, cs3) ∧
      iterRoundsLoop (full_round W) (p.full_rounds / 2) p cs = .ok (p1, cs1) ∧
      iterRoundsLoop (partial_round W) p1.partial_rounds p1 cs1 = .ok (p2, cs2) ∧
      iterRoundsLoop (full_round W) (p2.full_rounds / 2) p2 cs2 = .ok (p3, cs3) ∧
      p1.partial_rounds = p.partial_rounds ∧ p2.full_rounds = p.full_rounds ∧
      p3.elements[1]? = some out ∧
      out.value = some ((refRounds (refFullRound W mdsV rv) (p.full_rounds / 2)
        (refRounds (refPartialRound W mdsV rv) p.partial_rounds
          (refRounds (refFullRound W mdsV rv) (p.full_rounds / 2)
            (vs, p.constants_offset)))).1.getD 1 0) ∧
      p3.constants_offset = p.constants_offset +
        (2 * (p.full_rounds / 2) + p.partial_rounds) * W ∧
      zs.length = (2 * (p.full_rounds / 2) + p.partial_rounds) * W ∧
      SynthFacts (varsOf p.elements ++ varsOf rcsA ++ matrixVars mds) cs cs3 zs
        (p.full_rounds / 2 * (W * W + 6 * W) + p.partial_rounds * (W * W + 3 * W + 3) +
          p.full_rounds / 2 * (W * W + 6 * W))
        (p.full_rounds / 2 * (W * W + 5 * W) + p.partial_rounds * (W * W + 2 * W + 3) +
          p.full_rounds / 2 * (W * W + 5 * W)) := by
  obtain ⟨p1, cs1, zs1, heq1, hrc1, hmds1, hfr1, hpr1, hoff1, hval1, hlen1, hcur1, hzs1len,
    hsf1, helems1⟩ :=
    iterRounds_ok (full_round_spec hr hm hWm hrows) (p.full_rounds / 2) p vs cs hprc hpm
      hels hlen (by omega)
  obtain ⟨p2, cs2, zs2, heq2, hrc2, hmds2, hfr2, hpr2, hoff2, hval2, hlen2, hcur2, hzs2len,
    hsf2, helems2⟩ :=
    iterRounds_ok (partial_round_spec hr hm hWm hrows (by omega)) p1.partial_rounds p1
      (refRounds (refFullRound W mdsV rv) (p.full_rounds / 2) (vs, p.constants_offset)).1
      cs1 hrc1 hmds1 hval1 hlen1 (by rw [hoff1, hpr1]; omega)
  obtain ⟨p3, cs3, zs3, heq3, hrc3, hmds3, hfr3, hpr3, hoff3, hval3, hlen3, hcur3, hzs3len,
    hsf3, helems3⟩ :=
    iterRounds_ok (full_round_spec hr hm hWm hrows) (p2.full_rounds / 2) p2
      ((refRounds (refPartialRound W mdsV rv) p1.partial_rounds
        ((refRounds (refFullRound W mdsV rv) (p.full_rounds / 2)
          (vs, p.constants_offset)).1, p1.constants_offset)).1)
      cs2 hrc2 hmds2 hval2 hlen2
      (by rw [hoff2, hoff1, hfr2, hfr1, hpr1]; omega)
  -- rebuild the reference pair at each phase boundary
  have hpair1 : ((refRounds (refFullRound W mdsV rv) (p.full_rounds / 2)
      (vs, p.constants_offset)).1, p1.constants_offset) =
      refRounds (refFullRound W mdsV rv) (p.full_rounds / 2) (vs, p.constants_offset) := by
    rw [hoff1, ← hcur1]
  rw [hpair1] at hval2 hcur2 hval3
  have hpair2 : ((refRounds (refPartialRound W mdsV rv) p1.partial_rounds
      (refRounds (refFullRound W mdsV rv) (p.full_rounds / 2)
        (vs, p.constants_offset))).1, p2.constants_offset) =
      refRounds (refPartialRound W mdsV rv) p1.partial_rounds
        (refRounds (refFullRound W mdsV rv) (p.full_rounds / 2) (vs, p.constants_offset)) := by
    rw [hoff2, ← hcur2]
  rw [hpair2] at hval3
  rw [hfr2, hfr1, hpr1] at hval3
  -- the output element
  have hs3len : (refRounds (refFullRound W mdsV rv) (p.full_rounds / 2)
      (refRounds (refPartialRound W mdsV rv) p.partial_rounds
        (refRounds (refFullRound W mdsV rv) (p.full_rounds / 2)
          (vs, p.constants_offset)))).1.length = W := by
    rw [← valued_length hval3, hlen3]
  obtain ⟨out, houtidx, houtval⟩ := valued_get hval3 1 (by omega)
  -- composed synthesis facts
  have hcs1le : cs.aux.length ≤ cs1.aux.length := by
    obtain ⟨L, hL, _⟩ := hsf1.auxEq
    simp [hL]
  have hcs2le : cs1.aux.length ≤ cs2.aux.length := by
    obtain ⟨L, hL, _⟩ := hsf2.auxEq
    simp [hL]
  have hcs3le : cs2.aux.length ≤ cs3.aux.length := by
    obtain ⟨L, hL, _⟩ := hsf3.auxEq
    simp [hL]
  have hzs1lt : ∀ z ∈ zs1, z < cs1.aux.length := fun z hz => (hsf1.zsOK z hz).2.1
  have hzs2ge : ∀ z ∈ zs2, cs1.aux.length ≤ z := fun z hz => (hsf2.zsOK z hz).1
  have hzs2lt : ∀ z ∈ zs2, z < cs2.aux.length := fun z hz => (hsf2.zsOK z hz).2.1
  have hzs3ge : ∀ z ∈ zs3, cs2.aux.length ≤ z := fun z hz => (hsf3.zsOK z hz).1
  have hsf12 := synthFacts_comp hsf1 hsf2 (by
    intro w hw
    rcases List.mem_append.mp hw with h | h
    · rcases List.mem_append.mp h with h' | h'
      · rcases helems1 w h' with h'' | ⟨i, rfl, hi1, hi2, hi3⟩
        · exact Or.inr (Or.inl (List.mem_append.mpr
            (Or.inl (List.mem_append.mpr (Or.inl h'')))))
        · exact Or.inr (Or.inr ⟨i, rfl, hi1, hi2, hi3⟩)
      · exact Or.inr (Or.inl (List.mem_append.mpr
          (Or.inl (List.mem_append.mpr (Or.inr h')))))
    · exact Or.inr (Or.inl (List.mem_append.mpr (Or.inr h))))
  have hsf123 := synthFacts_comp hsf12 hsf3 (by
    intro w hw
    rcases List.mem_append.mp hw with h | h
    · rcases List.mem_append.mp h with h' | h'
      · rcases helems2 w h' with h'' | ⟨i, rfl, hi1, hi2, hi3⟩
        · rcases List.mem_append.mp (List.mem_append.mpr (Or.inl h'' :
            w ∈ varsOf p1.elements ∨ w ∈ varsOf rcsA)) with h3 | h3
          · rcases helems1 w h'' with h4 | ⟨i, rfl, hi1, hi2, hi3⟩
            · exact Or.inr (Or.inl (List.mem_append.mpr
                (Or.inl (List.mem_append.mpr (Or.inl h4)))))
            · refine Or.inr (Or.inr ⟨i, rfl, hi1, by omega, ?_⟩)
              intro hmem
              rcases List.mem_append.mp hmem with hm | hm
              · exact hi3 hm
              · exact absurd (hzs2ge i hm) (by omega)
          · exact Or.inr (Or.inl (List.mem_append.mpr
              (Or.inl (List.mem_append.mpr (Or.inr h3)))))
        · refine Or.inr (Or.inr ⟨i, rfl, by omega, hi2, ?_⟩)
          intro hmem
          rcases List.mem_append.mp hmem with hm | hm
          · exact absurd (hzs1lt i hm) (by omega)
          · exact hi3 hm
      · exact Or.inr (Or.inl (List.mem_append.mpr
          (Or.inl (List.mem_append.mpr (Or.inr h')))))
    · exact Or.inr (Or.inl (List.mem_append.mpr (Or.inr h))))
  refine ⟨out, p1, cs1, p2, cs2, p3, cs3, zs1 ++ zs2 ++ zs3, ?_, heq1, heq2, heq3, hpr1,
    hfr2.trans hfr1, houtidx, ?_, ?_, ?_, ?_⟩
  · unfold hash
    rw [mbind_ok heq1, mbind_ok heq2, mbind_ok heq3, houtidx]
    rfl
  · exact houtval
  · rw [hoff3, hoff2, hoff1, hfr2, hfr1, hpr1]
    have he : (2 * (p.full_rounds / 2) + p.partial_rounds) * W =
        p.full_rounds / 2 * W + p.partial_rounds * W + p.full_rounds / 2 * W := by ring
    rw [he]
    omega
  · simp only [List.length_append, hzs1len, hzs2len, hzs3len, hfr2, hfr1, hpr1]
    ring
  · rw [hfr2, hfr1, hpr1] at hsf123
    exact hsf123

/-- The synthesis facts of a block of pure allocations (no constraints). -/
theorem synthFacts_allocs (S : List Var) (cs : CS F) (L : List (Option F)) :
    SynthFacts S cs ⟨cs.aux ++ L, cs.constraints⟩ [] L.length 0 := by
  refine ⟨⟨L, rfl, rfl⟩, ⟨[], by simp, rfl, by simp⟩, by simp⟩

/-- `poseidon_hash`: materializes the MDS matrix, round constants and arity
tag without registering any constraint, prepends the tag to the preimage,
runs the permutation, and returns a variable carrying the reference Poseidon
digest.  All registered constraints come from the rounds; the `intial sum`
variables carry value `0` and are fresh. -/
theorem poseidon_hash_ok {W FR PR : Nat} {mdsVals : List (List F)} {rcsVals : List F}
    (hW2 : 2 ≤ W) (hmlen : mdsVals.length = W) (hrows : ∀ r ∈ mdsVals, r.length = W)
    (hrcs : FR / 2 * W + PR * W + FR / 2 * W ≤ rcsVals.length)
    (tag : F) (preimage : List (AllocatedNum F)) (pvs : List F) (cs : CS F)
    (hpre : valued preimage pvs) (hprelen : preimage.length = W - 1) :
    ∃ out cs' zs,
      poseidon_hash W FR PR mdsVals rcsVals tag preimage cs = .ok (out, cs') ∧
      out.value = some (refPoseidon W FR PR mdsVals rcsVals tag pvs) ∧
      zs.length = (2 * (FR / 2) + PR) * W ∧
      SynthFacts (varsOf preimage) cs cs' zs
        (mdsVals.flatten.length + rcsVals.length + 1 +
          (FR / 2 * (W * W + 6 * W) + PR * (W * W + 3 * W + 3) +
            FR / 2 * (W * W + 6 * W)))
        (FR / 2 * (W * W + 5 * W) + PR * (W * W + 2 * W + 3) +
          FR / 2 * (W * W + 5 * W)) := by
  obtain ⟨mA, hmEq, hmVal, hmFresh⟩ := allocated_matrix_ok mdsVals cs
  obtain ⟨rcsA, hrEq, hrVal, hrFresh⟩ :=
    allocated_round_constants_ok rcsVals ⟨cs.aux ++ mdsVals.flatten.map some, cs.constraints⟩
  obtain ⟨out, p1, cs1, p2, cs2, p3, cs3, zs, heqHash, heqPh1, heqPh2, heqPh3, hprP, hfrP,
    houtidx, houtval, hoff3, hzslen, hsfH⟩ :=
    hash_ok hrVal hmVal (by omega) (fun r hr => le_of_eq (hrows r hr).symm) hW2
      (PoseidonCircuit.new W FR PR
        (⟨Var.aux (cs.aux.length + mdsVals.flatten.length + rcsVals.length), some tag⟩ ::
          preimage) mA rcsA)
      (tag :: pvs)
      ⟨(cs.aux ++ mdsVals.flatten.map some ++ rcsVals.map some) ++ [some tag],
        cs.constraints⟩
      rfl rfl (valued_cons rfl hpre)
      (by simp only [PoseidonCircuit.new, List.length_cons]; omega)
      (by simpa [PoseidonCircuit.new] using hrcs)
  have hcsM1len : (cs.aux ++ mdsVals.flatten.map some).length =
      cs.aux.length + mdsVals.flatten.length := by
    rw [List.length_append, List.length_map]
  have hcsM2len : (cs.aux ++ mdsVals.flatten.map some ++ rcsVals.map some).length =
      cs.aux.length + mdsVals.flatten.length + rcsVals.length := by
    rw [List.length_append, List.length_append, List.length_map, List.length_map]
  refine ⟨out, cs3, zs, ?_, ?_, by simpa using hzslen, ?_⟩
  · unfold poseidon_hash
    rw [mbind_ok hmEq, mbind_ok hrEq]
    rw [mbind_ok (alloc_ok tag ⟨cs.aux ++ mdsVals.flatten.map some ++ rcsVals.map some,
      cs.constraints⟩)]
    rw [rotateRight_append_singleton]
    have hvar : (⟨Var.aux ((cs.aux ++ mdsVals.flatten.map some ++ rcsVals.map some)).length,
        some tag⟩ : AllocatedNum F) =
        ⟨Var.aux (cs.aux.length + mdsVals.flatten.length + rcsVals.length), some tag⟩ := by
      rw [hcsM2len]
    rw [hvar]
    exact heqHash
  · rw [houtval]
    simp [refPoseidon, PoseidonCircuit.new]
  · -- compose the materialization allocations with the round synthesis facts
    have hM1 := synthFacts_allocs (varsOf preimage) cs (mdsVals.flatten.map some)
    have hM2 := synthFacts_allocs (varsOf preimage)
      ⟨cs.aux ++ mdsVals.flatten.map some, cs.constraints⟩ (rcsVals.map some)
    have hM12 := synthFacts_comp hM1 hM2 (fun w hw => Or.inr (Or.inl hw))
    have hM3 := synthFacts_alloc (varsOf preimage)
      ⟨cs.aux ++ mdsVals.flatten.map some ++ rcsVals.map some, cs.constraints⟩ tag
    have hM : SynthFacts (varsOf preimage) cs
        ⟨(cs.aux ++ mdsVals.flatten.map some ++ rcsVals.map some) ++ [some tag],
          cs.constraints⟩ []
        (mdsVals.flatten.length + rcsVals.length + 1) 0 := by
      have hc := synthFacts_comp hM12 hM3 (fun w hw => Or.inr (Or.inl hw))
      have h1 : (mdsVals.flatten.map some).length + (rcsVals.map some).length + 1 =
          mdsVals.flatten.length + rcsVals.length + 1 := by
        rw [List.length_map, List.length_map]
      rw [← h1]
      exact hc
    have hfinal := synthFacts_comp hM hsfH (by
      intro w hw
      rcases List.mem_append.mp hw with h | h
      · rcases List.mem_append.mp h with h' | h'
        · have h'' : w = Var.aux (cs.aux.length + mdsVals.flatten.length + rcsVals.length) ∨
              w ∈ varsOf preimage := by
            simpa [varsOf, PoseidonCircuit.new] using h'
          rcases h'' with rfl | h''
          · refine Or.inr (Or.inr ⟨cs.aux.length + mdsVals.flatten.length + rcsVals.length,
              rfl, by omega, ?_, by simp⟩)
            simp only [List.length_append, List.length_cons, List.length_nil,
              List.length_map]
            omega
          · exact Or.inr (Or.inl h'')
        · obtain ⟨i, rfl, hi1, hi2, _⟩ := hrFresh w h'
          rw [hcsM1len] at hi1
          simp only [List.length_append, List.length_map] at hi2
          refine Or.inr (Or.inr ⟨i, rfl, by omega, ?_, by simp⟩)
          simp only [List.length_append, List.length_cons, List.length_nil, List.length_map]
          omega
      · obtain ⟨i, rfl, hi1, hi2, _⟩ := hmFresh w h
        refine Or.inr (Or.inr ⟨i, rfl, hi1, ?_, by simp⟩)
        simp only [List.length_append, List.length_cons, List.length_nil, List.length_map]
        omega)
    simpa [PoseidonCircuit.new] using hfinal

theorem valued_replicate (n : Nat) (v : Var) (x : F) :
    valued (List.replicate n ⟨v, some x⟩) (List.replicate n x) := by
  induction n with
  | zero => exact valued_nil
  | succ n ih => exact valued_cons rfl ih

theorem matrixValued_replicate (n : Nat)
    {row : List (AllocatedNum F)} {rowV : List F} (h : valued row rowV) :
    matrixValued (List.replicate n row) (List.replicate n rowV) := by
  induction n with
  | zero => exact List.Forall₂.nil
  | succ n ih => exact List.Forall₂.cons h ih

end LoopLemmas

section Claims

/-- C4: for every input variable carrying a concrete value `x`,
`quintic_s_box` returns a variable whose concrete value is `x ^ 5` and
registers exactly three multiplicative constraints — `square` (`l·l = l²`),
`square` (`l²·l² = l⁴`), then multiply by `x` (`l⁴·l = l⁵`) — independent of
the field and of the arity. -/
theorem quintic_s_box_value_and_constraints {F : Type} [CommRing F]
    {l : AllocatedNum F} {x : F} (h : l.value = some x) (cs : CS F) :
    ∃ out cs',
      quintic_s_box l cs = .ok (out, cs') ∧
      out.value = some (x ^ 5) ∧
      cs'.constraints = cs.constraints ++
        [⟨[(l.var, 1)], [(l.var, 1)], [(Var.aux cs.aux.length, 1)]⟩,
         ⟨[(Var.aux cs.aux.length, 1)], [(Var.aux cs.aux.length, 1)],
           [(Var.aux (cs.aux.length + 1), 1)]⟩,
         ⟨[(Var.aux (cs.aux.length + 1), 1)], [(l.var, 1)],
           [(Var.aux (cs.aux.length + 2), 1)]⟩] ∧
      cs'.constraints.length = cs.constraints.length + 3 := by
  refine ⟨_, _, quintic_s_box_ok h cs, ?_, rfl, by simp⟩
  have hx5 : x * x * (x * x) * x = x ^ 5 := by ring
  simp [hx5]

/-- Witness for C4 at a concrete input: `x = 2` in `ZMod 5`. -/
theorem quintic_s_box_value_and_constraints_witness :
    (⟨Var.aux 0, some (2 : ZMod 5)⟩ : AllocatedNum (ZMod 5)).value = some 2 ∧
    ∃ out cs',
      quintic_s_box (⟨Var.aux 0, some (2 : ZMod 5)⟩ : AllocatedNum (ZMod 5))
        ⟨[some 2], []⟩ = .ok (out, cs') ∧
      out.value = some ((2 : ZMod 5) ^ 5) ∧
      cs'.constraints = ([] : List (Constraint (ZMod 5))) ++
        [⟨[(Var.aux 0, 1)], [(Var.aux 0, 1)], [(Var.aux 1, 1)]⟩,
         ⟨[(Var.aux 1, 1)], [(Var.aux 1, 1)], [(Var.aux 2, 1)]⟩,
         ⟨[(Var.aux 2, 1)], [(Var.aux 0, 1)], [(Var.aux 3, 1)]⟩] ∧
      cs'.constraints.length = ([] : List (Constraint (ZMod 5))).length + 3 :=
  ⟨rfl, by
    have h := quintic_s_box_value_and_constraints
      (show (⟨Var.aux 0, some (2 : ZMod 5)⟩ : AllocatedNum (ZMod 5)).value = some 2 from rfl)
      ⟨[some 2], []⟩
    simpa using h⟩

/-- C7: at a missing witness value, the `AllocatedNum` gadgets `add`, `mul`,
`square` and the S-box surface `AssignmentMissing` as an error result to the
caller; `multi_add` instead panics (it `unwrap`s the very
`AssignmentMissing` it constructs), so circuit construction aborts by
unwinding rather than by an error result. -/
theorem multi_add_panics_on_missing_witness :
    multi_add ([⟨Var.aux 0, none⟩] : List (AllocatedNum (ZMod 5))) ⟨[none], []⟩ =
      .error .panicked ∧
    add (⟨Var.aux 0, none⟩ : AllocatedNum (ZMod 5)) ⟨Var.aux 0, none⟩ ⟨[none], []⟩ =
      .error .assignmentMissing ∧
    mul (⟨Var.aux 0, none⟩ : AllocatedNum (ZMod 5)) ⟨Var.aux 0, none⟩ ⟨[none], []⟩ =
      .error .assignmentMissing ∧
    square (⟨Var.aux 0, none⟩ : AllocatedNum (ZMod 5)) ⟨[none], []⟩ =
      .error .assignmentMissing ∧
    quintic_s_box (⟨Var.aux 0, none⟩ : AllocatedNum (ZMod 5)) ⟨[none], []⟩ =
      .error .assignmentMissing :=
  ⟨rfl, rfl, rfl, rfl, rfl⟩

/-- C8: materializing the diffusion matrix and the round constants registers
no constraints at all — the resulting constraint list is unchanged — and the
materialized variables are fresh and carry exactly the supplied constant
values, with no binding constraint attached to them. -/
theorem materialization_registers_no_constraints {F : Type} [CommRing F]
    (rows : List (List F)) (consts : List F) (cs : CS F) :
    (∃ mA, allocated_matrix rows cs =
        .ok (mA, ⟨cs.aux ++ rows.flatten.map some, cs.constraints⟩) ∧
      matrixValued mA rows ∧
      varsFresh cs.aux.length (cs.aux.length + rows.flatten.length) [] (matrixVars mA)) ∧
    (∃ ns, allocated_round_constants consts cs =
        .ok (ns, ⟨cs.aux ++ consts.map some, cs.constraints⟩) ∧
      valued ns consts ∧
      varsFresh cs.aux.length (cs.aux.length + consts.length) [] (varsOf ns)) :=
  ⟨allocated_matrix_ok rows cs, allocated_round_constants_ok consts cs⟩

/-- C1: for every input vector of `arity = W - 1` circuit variables all
carrying concrete values, with well-shaped externally supplied parameters,
the concrete value of the output variable returned by `poseidon_hash` equals
the reference (non-circuit) Poseidon permutation's digest on the same
input. -/
theorem poseidon_hash_matches_reference {F : Type} [CommRing F] {W FR PR : Nat}
    {mdsVals : List (List F)} {rcsVals : List F}
    (hW2 : 2 ≤ W) (hmlen : mdsVals.length = W) (hrows : ∀ r ∈ mdsVals, r.length = W)
    (hrcs : FR / 2 * W + PR * W + FR / 2 * W ≤ rcsVals.length)
    (tag : F) (preimage : List (AllocatedNum F)) (pvs : List F) (cs : CS F)
    (hpre : valued preimage pvs) (hprelen : preimage.length = W - 1) :
    ∃ out cs',
      poseidon_hash W FR PR mdsVals rcsVals tag preimage cs = .ok (out, cs') ∧
      out.value = some (refPoseidon W FR PR mdsVals rcsVals tag pvs) := by
  obtain ⟨out, cs', zs, h1, h2, _, _⟩ :=
    poseidon_hash_ok hW2 hmlen hrows hrcs tag preimage pvs cs hpre hprelen
  exact ⟨out, cs', h1, h2⟩

set_option maxRecDepth 4000 in
/-- Witness for C1 at a concrete input over `ZMod 5`, with the repository's
width-3 configuration. -/
theorem poseidon_hash_matches_reference_witness :
    ∃ out cs',
      poseidon_hash WIDTH FULL_ROUNDS PARTIAL_ROUNDS
        (List.replicate 3 (List.replicate 3 (1 : ZMod 5))) (List.replicate 189 0) 2
        [⟨Var.aux 0, some 1⟩, ⟨Var.aux 1, some 3⟩] ⟨[some 1, some 3], []⟩ = .ok (out, cs') ∧
      out.value = some (refPoseidon WIDTH FULL_ROUNDS PARTIAL_ROUNDS
        (List.replicate 3 (List.replicate 3 (1 : ZMod 5))) (List.replicate 189 0) 2 [1, 3]) :=
  poseidon_hash_matches_reference (by decide) (by decide) (by decide) (by decide) 2 _ _ _
    (valued_cons rfl (valued_cons rfl valued_nil)) (by decide)

/-- C2: for arity 2 (width 3) and the crate's round numbers, one invocation
of `poseidon_hash` registers exactly 1182 constraints in the constraint
system. -/
theorem poseidon_hash_registers_1182_constraints {F : Type} [CommRing F]
    {mdsVals : List (List F)} {rcsVals : List F}
    (hmlen : mdsVals.length = WIDTH) (hrows : ∀ r ∈ mdsVals, r.length = WIDTH)
    (hrcs : rcsVals.length = WIDTH * (FULL_ROUNDS + PARTIAL_ROUNDS))
    (tag : F) (preimage : List (AllocatedNum F)) (pvs : List F) (cs : CS F)
    (hpre : valued preimage pvs) (hprelen : preimage.length = ARITY) :
    ∃ out cs',
      poseidon_hash WIDTH FULL_ROUNDS PARTIAL_ROUNDS mdsVals rcsVals tag preimage cs =
        .ok (out, cs') ∧
      cs'.constraints.length = cs.constraints.length + 1182 := by
  obtain ⟨out, cs', zs, h1, _, _, hsf⟩ :=
    @poseidon_hash_ok F _ WIDTH FULL_ROUNDS PARTIAL_ROUNDS mdsVals rcsVals (by decide) hmlen
      hrows (by rw [hrcs]; decide) tag preimage pvs cs hpre (by rw [hprelen]; rfl)
  obtain ⟨L, hL, hLlen, _⟩ := hsf.csEq
  refine ⟨out, cs', h1, ?_⟩
  rw [hL, List.length_append, hLlen]
  rfl

set_option maxRecDepth 4000 in
/-- Witness for C2 at a concrete input over `ZMod 5`. -/
theorem poseidon_hash_registers_1182_constraints_witness :
    ∃ out cs',
      poseidon_hash WIDTH FULL_ROUNDS PARTIAL_ROUNDS
        (List.replicate 3 (List.replicate 3 (1 : ZMod 5))) (List.replicate 189 0) 2
        [⟨Var.aux 0, some 1⟩, ⟨Var.aux 1, some 3⟩] ⟨[some 1, some 3], []⟩ = .ok (out, cs') ∧
      cs'.constraints.length = ([] : List (Constraint (ZMod 5))).length + 1182 :=
  poseidon_hash_registers_1182_constraints (by decide) (by decide) (by decide) 2 _ _ _
    (valued_cons rfl (valued_cons rfl valued_nil)) (by decide)

/-- C5: every diffusion step replaces the state by the MDS matrix product:
for each row `j < W` the new `state[j]` carries the fold of the `W` products
`mds[j][k] · state[k]` for `k < W`, and the step registers `W`
multiplications plus one additive fold binding per output row — exactly
`W² + W` constraints per diffusion step. -/
theorem product_mds_fold_and_count {F : Type} [CommRing F]
    {mds : List (List (AllocatedNum F))} {mdsV : List (List F)} {vs : List F} {W : Nat}
    (hm : matrixValued mds mdsV) (hWm : W ≤ mdsV.length)
    (hrows : ∀ r ∈ mdsV, W ≤ r.length)
    (p : PoseidonCircuit F) (cs : CS F)
    (hpm : p.mds_matrix = mds) (hels : valued p.elements vs) (hW : W ≤ vs.length) :
    ∃ rs cs',
      product_mds W p cs = .ok ({ p with elements := rs }, cs') ∧
      rs.length = W ∧
      valued rs (refProductMds W mdsV vs) ∧
      (∀ j, j < W → (refProductMds W mdsV vs).getD j 0 =
        (((List.range W).map fun k =>
          (mdsV.getD j []).getD k 0 * vs.getD k 0)).foldl (· + ·) 0) ∧
      cs'.constraints.length = cs.constraints.length + (W * W + W) := by
  obtain ⟨rs, cs', zs, heq, hval, hlen, _, hsf, _⟩ :=
    product_mds_ok hm hWm hrows p cs hpm hels hW
  obtain ⟨L, hL, hLlen, _⟩ := hsf.csEq
  refine ⟨rs, cs', heq, hlen, hval, ?_, ?_⟩
  · intro j hj
    simp only [refProductMds, List.getD_eq_getElem?_getD, List.getElem?_map,
      List.getElem?_range, hj, if_pos]
    simp [refMdsRow, List.getD_eq_getElem?_getD]
  · rw [hL, List.length_append, hLlen]
    have : W * (W + 1) = W * W + W := by ring
    rw [this]

/-- Witness for C5 at a concrete width-2 circuit over `ZMod 5`. -/
theorem product_mds_fold_and_count_witness :
    ∃ rs cs',
      product_mds 2
        (PoseidonCircuit.new 2 2 1
          [⟨Var.aux 0, some (1 : ZMod 5)⟩, ⟨Var.aux 1, some 2⟩]
          [[⟨Var.aux 2, some 1⟩, ⟨Var.aux 3, some 0⟩],
           [⟨Var.aux 4, some 0⟩, ⟨Var.aux 5, some 1⟩]]
          []) ⟨[some 1, some 2, some 1, some 0, some 0, some 1], []⟩ =
        .ok ({ PoseidonCircuit.new 2 2 1
          [⟨Var.aux 0, some (1 : ZMod 5)⟩, ⟨Var.aux 1, some 2⟩]
          [[⟨Var.aux 2, some 1⟩, ⟨Var.aux 3, some 0⟩],
           [⟨Var.aux 4, some 0⟩, ⟨Var.aux 5, some 1⟩]]
          [] with elements := rs }, cs') ∧
      rs.length = 2 ∧
      valued rs (refProductMds 2 [[1, 0], [0, 1]] [1, 2]) ∧
      (∀ j, j < 2 → (refProductMds 2 [[(1 : ZMod 5), 0], [0, 1]] [1, 2]).getD j 0 =
        (((List.range 2).map fun k =>
          ([[(1 : ZMod 5), 0], [0, 1]].getD j []).getD k 0 * [(1 : ZMod 5), 2].getD k 0)).foldl
            (· + ·) 0) ∧
      cs'.constraints.length = 0 + (2 * 2 + 2) :=
  product_mds_fold_and_count
    (List.Forall₂.cons (valued_cons rfl (valued_cons rfl valued_nil))
      (List.Forall₂.cons (valued_cons rfl (valued_cons rfl valued_nil)) List.Forall₂.nil))
    (by decide) (by decide) _ _ rfl
    (valued_cons rfl (valued_cons rfl valued_nil)) (by decide)

/-- C9: the permutation state vector has length exactly `width = arity + 1`
initially (the tag prepended to the `arity` inputs) and after every full
round, partial round, and diffusion step; it is never resized across the
permutation run. -/
theorem state_width_invariant {F : Type} [CommRing F]
    {rcsA : List (AllocatedNum F)} {rv : List F}
    {mds : List (List (AllocatedNum F))} {mdsV : List (List F)} {W : Nat}
    (hr : valued rcsA rv) (hm : matrixValued mds mdsV)
    (hWm : W ≤ mdsV.length) (hrows : ∀ r ∈ mdsV, W ≤ r.length) (hW0 : 0 < W) :
    (∀ (tagVar : AllocatedNum F) (preimage : List (AllocatedNum F)),
      preimage.length = W - 1 →
      ((preimage ++ [tagVar]).rotateRight 1).length = W) ∧
    (∀ (p : PoseidonCircuit F) (vs : List F) (cs : CS F),
      p.round_constants = rcsA → p.mds_matrix = mds →
      valued p.elements vs → p.elements.length = W → p.constants_offset + W ≤ rv.length →
      ∃ p' cs', full_round W p cs = .ok (p', cs') ∧ p'.elements.length = W) ∧
    (∀ (p : PoseidonCircuit F) (vs : List F) (cs : CS F),
      p.round_constants = rcsA → p.mds_matrix = mds →
      valued p.elements vs → p.elements.length = W → p.constants_offset + W ≤ rv.length →
      ∃ p' cs', partial_round W p cs = .ok (p', cs') ∧ p'.elements.length = W) ∧
    (∀ (p : PoseidonCircuit F) (vs : List F) (cs : CS F),
      p.mds_matrix = mds → valued p.elements vs → W ≤ vs.length →
      ∃ rs cs', product_mds W p cs = .ok ({ p with elements := rs }, cs') ∧
        rs.length = W) := by
  refine ⟨?_, ?_, ?_, ?_⟩
  · intro tagVar preimage hpl
    rw [rotateRight_append_singleton]
    simp only [List.length_cons, hpl]
    omega
  · intro p vs cs h1 h2 h3 h4 h5
    obtain ⟨p', cs', zs, heq, _, _, _, _, _, _, hlen, _⟩ :=
      full_round_ok hr hm hWm hrows p vs cs h1 h2 h3 h4 h5
    exact ⟨p', cs', heq, hlen⟩
  · intro p vs cs h1 h2 h3 h4 h5
    obtain ⟨p', cs', zs, heq, _, _, _, _, _, _, hlen, _⟩ :=
      partial_round_ok hr hm hWm hrows hW0 p vs cs h1 h2 h3 h4 h5
    exact ⟨p', cs', heq, hlen⟩
  · intro p vs cs h1 h2 h3
    obtain ⟨rs, cs', zs, heq, _, hlen, _, _, _⟩ := product_mds_ok hm hWm hrows p cs h1 h2 h3
    exact ⟨rs, cs', heq, hlen⟩

/-- C3: the round-constants cursor starts at 0 (`PoseidonCircuit.new`),
advances by exactly `WIDTH` on every full or partial round — so no constant
index is ever read twice — and after a complete permutation run equals
`WIDTH * (FULL_ROUNDS + PARTIAL_ROUNDS)`, never exceeding the supplied
sequence length. -/
theorem cursor_consumption {F : Type} [CommRing F]
    {rcsA : List (AllocatedNum F)} {rv : List F}
    {mds : List (List (AllocatedNum F))} {mdsV : List (List F)}
    (hr : valued rcsA rv) (hm : matrixValued mds mdsV)
    (hWm : WIDTH ≤ mdsV.length) (hrows : ∀ r ∈ mdsV, WIDTH ≤ r.length)
    (hrv : rv.length = WIDTH * (FULL_ROUNDS + PARTIAL_ROUNDS)) :
    (∀ (els : List (AllocatedNum F)) (matrix : List (List (AllocatedNum F)))
        (rcs : List (AllocatedNum F)),
      (PoseidonCircuit.new WIDTH FULL_ROUNDS PARTIAL_ROUNDS els matrix rcs).constants_offset
        = 0) ∧
    (∀ (p : PoseidonCircuit F) (vs : List F) (cs : CS F),
      p.round_constants = rcsA → p.mds_matrix = mds → valued p.elements vs →
      p.elements.length = WIDTH → p.constants_offset + WIDTH ≤ rv.length →
      ∃ p' cs', full_round WIDTH p cs = .ok (p', cs') ∧
        p'.constants_offset = p.constants_offset + WIDTH) ∧
    (∀ (p : PoseidonCircuit F) (vs : List F) (cs : CS F),
      p.round_constants = rcsA → p.mds_matrix = mds → valued p.elements vs →
      p.elements.length = WIDTH → p.constants_offset + WIDTH ≤ rv.length →
      ∃ p' cs', partial_round WIDTH p cs = .ok (p', cs') ∧
        p'.constants_offset = p.constants_offset + WIDTH) ∧
    (∀ (els : List (AllocatedNum F)) (vs : List F) (cs : CS F),
      valued els vs → els.length = WIDTH →
      ∃ out p1 cs1 p2 cs2 p3 cs3,
        hash WIDTH (PoseidonCircuit.new WIDTH FULL_ROUNDS PARTIAL_ROUNDS els mds rcsA) cs
          = .ok (out, cs3) ∧
        iterRoundsLoop (full_round WIDTH) (FULL_ROUNDS / 2)
          (PoseidonCircuit.new WIDTH FULL_ROUNDS PARTIAL_ROUNDS els mds rcsA) cs
          = .ok (p1, cs1) ∧
        iterRoundsLoop (partial_round WIDTH) PARTIAL_ROUNDS p1 cs1 = .ok (p2, cs2) ∧
        iterRoundsLoop (full_round WIDTH) (FULL_ROUNDS / 2) p2 cs2 = .ok (p3, cs3) ∧
        p3.constants_offset = WIDTH * (FULL_ROUNDS + PARTIAL_ROUNDS) ∧
        WIDTH * (FULL_ROUNDS + PARTIAL_ROUNDS) ≤ rv.length) := by
  refine ⟨fun _ _ _ => rfl, ?_, ?_, ?_⟩
  · intro p vs cs h1 h2 h3 h4 h5
    obtain ⟨p', cs', zs, heq, _, _, _, _, hoff, _⟩ :=
      full_round_ok hr hm hWm hrows p vs cs h1 h2 h3 h4 h5
    exact ⟨p', cs', heq, hoff⟩
  · intro p vs cs h1 h2 h3 h4 h5
    obtain ⟨p', cs', zs, heq, _, _, _, _, hoff, _⟩ :=
      partial_round_ok hr hm hWm hrows (by decide) p vs cs h1 h2 h3 h4 h5
    exact ⟨p', cs', heq, hoff⟩
  · intro els vs cs hels hlen
    obtain ⟨out, p1, cs1, p2, cs2, p3, cs3, zs, heqHash, heqPh1, heqPh2, heqPh3, hprP, hfrP,
      _, _, hoff3, _, _⟩ :=
      hash_ok hr hm hWm hrows (by decide)
        (PoseidonCircuit.new WIDTH FULL_ROUNDS PARTIAL_ROUNDS els mds rcsA) vs cs
        rfl rfl hels hlen (by simp only [PoseidonCircuit.new]; rw [hrv]; decide)
    rw [hprP] at heqPh2
    rw [hfrP] at heqPh3
    refine ⟨out, p1, cs1, p2, cs2, p3, cs3, heqHash, heqPh1, heqPh2, heqPh3, ?_, by
      rw [hrv]⟩
    rw [hoff3]
    simp only [PoseidonCircuit.new]
    decide

set_option maxRecDepth 4000 in
/-- Witness for C3 (the complete-run component) at a concrete width-3
instance over `ZMod 5`. -/
theorem cursor_consumption_witness :
    ∃ out p1 cs1 p2 cs2 p3 cs3,
      hash WIDTH (PoseidonCircuit.new WIDTH FULL_ROUNDS PARTIAL_ROUNDS
        [⟨Var.aux 0, some (1 : ZMod 5)⟩, ⟨Var.aux 1, some 2⟩, ⟨Var.aux 2, some 3⟩]
        (List.replicate 3 (List.replicate 3 ⟨Var.aux 3, some 1⟩))
        (List.replicate 189 ⟨Var.aux 4, some 0⟩)) ⟨[], []⟩
        = .ok (out, cs3) ∧
      iterRoundsLoop (full_round WIDTH) (FULL_ROUNDS / 2)
        (PoseidonCircuit.new WIDTH FULL_ROUNDS PARTIAL_ROUNDS
          [⟨Var.aux 0, some (1 : ZMod 5)⟩, ⟨Var.aux 1, some 2⟩, ⟨Var.aux 2, some 3⟩]
          (List.replicate 3 (List.replicate 3 ⟨Var.aux 3, some 1⟩))
          (List.replicate 189 ⟨Var.aux 4, some 0⟩)) ⟨[], []⟩
        = .ok (p1, cs1) ∧
      iterRoundsLoop (partial_round WIDTH) PARTIAL_ROUNDS p1 cs1 = .ok (p2, cs2) ∧
      iterRoundsLoop (full_round WIDTH) (FULL_ROUNDS / 2) p2 cs2 = .ok (p3, cs3) ∧
      p3.constants_offset = WIDTH * (FULL_ROUNDS + PARTIAL_ROUNDS) ∧
      WIDTH * (FULL_ROUNDS + PARTIAL_ROUNDS) ≤
        (List.replicate 189 (0 : ZMod 5)).length :=
  (cursor_consumption (valued_replicate 189 (Var.aux 4) 0)
      (matrixValued_replicate 3 (valued_replicate 3 (Var.aux 3) 1))
      (by decide) (by decide) (by decide)).2.2.2
    [⟨Var.aux 0, some 1⟩, ⟨Var.aux 1, some 2⟩, ⟨Var.aux 2, some 3⟩] [1, 2, 3] ⟨[], []⟩
    (valued_cons rfl (valued_cons rfl (valued_cons rfl valued_nil))) (by decide)

/-- C6: `poseidon_hash` forms the initial state by prepending the arity tag
to the input vector (tag at index 0, the inputs following in their original
order), runs `FR / 2` full rounds, `PR` partial rounds and `FR / 2` full
rounds in strict sequence, and returns the element at index 1 of the
terminal state vector. -/
theorem poseidon_hash_schedule {F : Type} [CommRing F] {W FR PR : Nat}
    {mdsVals : List (List F)} {rcsVals : List F}
    (hW2 : 2 ≤ W) (hmlen : mdsVals.length = W) (hrows : ∀ r ∈ mdsVals, r.length = W)
    (hrcs : FR / 2 * W + PR * W + FR / 2 * W ≤ rcsVals.length)
    (tag : F) (preimage : List (AllocatedNum F)) (pvs : List F) (cs : CS F)
    (hpre : valued preimage pvs) (hprelen : preimage.length = W - 1) :
    ∃ (tagVar : AllocatedNum F) (matrix : List (List (AllocatedNum F)))
      (roundConsts : List (AllocatedNum F)) (csM : CS F)
      (p1 : PoseidonCircuit F) (cs1 : CS F) (p2 : PoseidonCircuit F) (cs2 : CS F)
      (p3 : PoseidonCircuit F) (cs3 : CS F) (out : AllocatedNum F),
      tagVar.value = some tag ∧
      iterRoundsLoop (full_round W) (FR / 2)
        (PoseidonCircuit.new W FR PR (tagVar :: preimage) matrix roundConsts) csM =
        .ok (p1, cs1) ∧
      iterRoundsLoop (partial_round W) PR p1 cs1 = .ok (p2, cs2) ∧
      iterRoundsLoop (full_round W) (FR / 2) p2 cs2 = .ok (p3, cs3) ∧
      p3.elements[1]? = some out ∧
      poseidon_hash W FR PR mdsVals rcsVals tag preimage cs = .ok (out, cs3) := by
  obtain ⟨mA, hmEq, hmVal, hmFresh⟩ := allocated_matrix_ok mdsVals cs
  obtain ⟨rcsA, hrEq, hrVal, hrFresh⟩ :=
    allocated_round_constants_ok rcsVals ⟨cs.aux ++ mdsVals.flatten.map some, cs.constraints⟩
  obtain ⟨out, p1, cs1, p2, cs2, p3, cs3, zs, heqHash, heqPh1, heqPh2, heqPh3, hprP, hfrP,
    houtidx, houtval, hoff3, hzslen, hsfH⟩ :=
    hash_ok hrVal hmVal (by omega) (fun r hr => le_of_eq (hrows r hr).symm) hW2
      (PoseidonCircuit.new W FR PR
        (⟨Var.aux (cs.aux.length + mdsVals.flatten.length + rcsVals.length), some tag⟩ ::
          preimage) mA rcsA)
      (tag :: pvs)
      ⟨(cs.aux ++ mdsVals.flatten.map some ++ rcsVals.map some) ++ [some tag],
        cs.constraints⟩
      rfl rfl (valued_cons rfl hpre)
      (by simp only [PoseidonCircuit.new, List.length_cons]; omega)
      (by simpa [PoseidonCircuit.new] using hrcs)
  rw [hprP] at heqPh2
  rw [hfrP] at heqPh3
  refine ⟨⟨Var.aux (cs.aux.length + mdsVals.flatten.length + rcsVals.length), some tag⟩,
    mA, rcsA,
    ⟨(cs.aux ++ mdsVals.flatten.map some ++ rcsVals.map some) ++ [some tag],
      cs.constraints⟩,
    p1, cs1, p2, cs2, p3, cs3, out, rfl, heqPh1, heqPh2, heqPh3, houtidx, ?_⟩
  unfold poseidon_hash
  rw [mbind_ok hmEq, mbind_ok hrEq]
  rw [mbind_ok (alloc_ok tag ⟨cs.aux ++ mdsVals.flatten.map some ++ rcsVals.map some,
    cs.constraints⟩)]
  rw [rotateRight_append_singleton]
  have hvar : (⟨Var.aux ((cs.aux ++ mdsVals.flatten.map some ++ rcsVals.map some)).length,
      some tag⟩ : AllocatedNum F) =
      ⟨Var.aux (cs.aux.length + mdsVals.flatten.length + rcsVals.length), some tag⟩ := by
    rw [List.length_append, List.length_append, List.length_map, List.length_map]
  rw [hvar]
  exact heqHash

set_option maxRecDepth 4000 in
/-- Witness for C6 at a concrete input over `ZMod 5`. -/
theorem poseidon_hash_schedule_witness :
    ∃ (tagVar : AllocatedNum (ZMod 5)) (matrix : List (List (AllocatedNum (ZMod 5))))
      (roundConsts : List (AllocatedNum (ZMod 5))) (csM : CS (ZMod 5))
      (p1 : PoseidonCircuit (ZMod 5)) (cs1 : CS (ZMod 5)) (p2 : PoseidonCircuit (ZMod 5))
      (cs2 : CS (ZMod 5)) (p3 : PoseidonCircuit (ZMod 5)) (cs3 : CS (ZMod 5))
      (out : AllocatedNum (ZMod 5)),
      tagVar.value = some 2 ∧
      iterRoundsLoop (full_round WIDTH) (FULL_ROUNDS / 2)
        (PoseidonCircuit.new WIDTH FULL_ROUNDS PARTIAL_ROUNDS
          (tagVar :: [⟨Var.aux 0, some 1⟩, ⟨Var.aux 1, some 3⟩]) matrix roundConsts) csM =
        .ok (p1, cs1) ∧
      iterRoundsLoop (partial_round WIDTH) PARTIAL_ROUNDS p1 cs1 = .ok (p2, cs2) ∧
      iterRoundsLoop (full_round WIDTH) (FULL_ROUNDS / 2) p2 cs2 = .ok (p3, cs3) ∧
      p3.elements[1]? = some out ∧
      poseidon_hash WIDTH FULL_ROUNDS PARTIAL_ROUNDS
        (List.replicate 3 (List.replicate 3 (1 : ZMod 5))) (List.replicate 189 0) 2
        [⟨Var.aux 0, some 1⟩, ⟨Var.aux 1, some 3⟩] ⟨[some 1, some 3], []⟩ =
        .ok (out, cs3) :=
  poseidon_hash_schedule (by decide) (by decide) (by decide) (by decide) 2 _ _ _
    (valued_cons rfl (valued_cons rfl valued_nil)) (by decide)

/-- C10: across a full `poseidon_hash` run, each diffusion step allocates
one auxiliary `intial sum` variable per output row with concrete value zero
that is immediately overwritten by the `multi_add` result —
`(2·(FR/2) + PR)·W` such variables in total — and none of them occurs in any
constraint registered in the final circuit. -/
theorem product_mds_zero_vars_unconstrained {F : Type} [CommRing F] {W FR PR : Nat}
    {mdsVals : List (List F)} {rcsVals : List F}
    (hW2 : 2 ≤ W) (hmlen : mdsVals.length = W) (hrows : ∀ r ∈ mdsVals, r.length = W)
    (hrcs : FR / 2 * W + PR * W + FR / 2 * W ≤ rcsVals.length)
    (tag : F) (preimage : List (AllocatedNum F)) (pvs : List F) (cs : CS F)
    (hpre : valued preimage pvs) (hprelen : preimage.length = W - 1)
    (hprevars : ∀ w ∈ varsOf preimage, ∃ i, w = Var.aux i ∧ i < cs.aux.length)
    (hcsvalid : ∀ c ∈ cs.constraints, ∀ v ∈ constraintVars c,
      v = Var.one ∨ ∃ i, v = Var.aux i ∧ i < cs.aux.length) :
    ∃ (out : AllocatedNum F) (cs' : CS F) (zs : List Nat),
      poseidon_hash W FR PR mdsVals rcsVals tag preimage cs = .ok (out, cs') ∧
      zs.length = (2 * (FR / 2) + PR) * W ∧
      (∀ z ∈ zs, cs.aux.length ≤ z ∧ z < cs'.aux.length ∧
        cs'.aux[z]? = some (some 0) ∧
        ∀ c ∈ cs'.constraints, Var.aux z ∉ constraintVars c) := by
  obtain ⟨out, cs', zs, h1, _, hzlen, hsf⟩ :=
    poseidon_hash_ok hW2 hmlen hrows hrcs tag preimage pvs cs hpre hprelen
  obtain ⟨L, hL, hLlen, hLf⟩ := hsf.csEq
  refine ⟨out, cs', zs, h1, hzlen, ?_⟩
  intro z hz
  obtain ⟨hz1, hz2, hz3⟩ := hsf.zsOK z hz
  refine ⟨hz1, hz2, hz3, ?_⟩
  intro c hc hmem
  rw [hL] at hc
  rcases List.mem_append.mp hc with h | h
  · rcases hcsvalid c h _ hmem with h' | ⟨i, hEq, hlt⟩
    · exact absurd h' (by simp)
    · have : z = i := by simpa using hEq
      omega
  · obtain ⟨hvars, _⟩ := hLf c h
    rcases hvars _ hmem with h' | h' | ⟨i, hEq, hii1, hii2, hii3⟩
    · exact absurd h' (by simp)
    · obtain ⟨i, hEq, hlt⟩ := hprevars _ h'
      have : z = i := by simpa using hEq
      omega
    · have : z = i := by simpa using hEq
      subst this
      exact hii3 hz

set_option maxRecDepth 4000 in
/-- Witness for C10 at a concrete input over `ZMod 5`. -/
theorem product_mds_zero_vars_unconstrained_witness :
    ∃ (out : AllocatedNum (ZMod 5)) (cs' : CS (ZMod 5)) (zs : List Nat),
      poseidon_hash WIDTH FULL_ROUNDS PARTIAL_ROUNDS
        (List.replicate 3 (List.replicate 3 (1 : ZMod 5))) (List.replicate 189 0) 2
        [⟨Var.aux 0, some 1⟩, ⟨Var.aux 1, some 3⟩] ⟨[some 1, some 3], []⟩ =
        .ok (out, cs') ∧
      zs.length = (2 * (FULL_ROUNDS / 2) + PARTIAL_ROUNDS) * WIDTH ∧
      (∀ z ∈ zs, ([some (1 : ZMod 5), some 3] : List (Option (ZMod 5))).length ≤ z ∧
        z < cs'.aux.length ∧
        cs'.aux[z]? = some (some 0) ∧
        ∀ c ∈ cs'.constraints, Var.aux z ∉ constraintVars c) :=
  product_mds_zero_vars_unconstrained (by decide) (by decide) (by decide) (by decide) 2 _ _ _
    (valued_cons rfl (valued_cons rfl valued_nil)) (by decide)
    (by
      intro w hw
      rcases (by simpa [varsOf] using hw : w = Var.aux 0 ∨ w = Var.aux 1) with rfl | rfl
      · exact ⟨0, rfl, by decide⟩
      · exact ⟨1, rfl, by decide⟩)
    (by intro c hc; simp at hc)

/-- Witness for C9 (the full-round component) at a concrete width-1
instance over `ZMod 5`. -/
theorem state_width_invariant_witness :
    ∃ p' cs',
      full_round 1 (PoseidonCircuit.new 1 2 1 [⟨Var.aux 0, some (2 : ZMod 5)⟩]
        [[⟨Var.aux 1, some 1⟩]] [⟨Var.aux 2, some 0⟩]) ⟨[], []⟩ = .ok (p', cs') ∧
      p'.elements.length = 1 :=
  (state_width_invariant (valued_cons rfl valued_nil)
      (List.Forall₂.cons (valued_cons rfl valued_nil) List.Forall₂.nil)
      (by decide) (by decide) (by decide)).2.1
    (PoseidonCircuit.new 1 2 1 [⟨Var.aux 0, some (2 : ZMod 5)⟩]
      [[⟨Var.aux 1, some 1⟩]] [⟨Var.aux 2, some 0⟩]) [2] ⟨[], []⟩
    rfl rfl (valued_cons rfl valued_nil) (by decide) (by decide)

end Claims

end Neptune
